import Mathlib

/-!
Verification development for the k3 post library.

Scope: the in-memory post representation (post.go), the plain-text entity
scanner (import/text/text.go), the length-constrained splitter (the posts
package: Split, splitBlocks, groupBlocks) and the increasing clock.

Modelling conventions:
- a Go string is modelled by its sequence of runes (Unicode code points),
  `List Char`; Go's byte-counting `len` is recovered by `utf8Len`;
- Go `*string` fields become `Option (List Char)`; Go pointer equality on
  freshly allocated strings coincides with value equality on the options;
- a Go slice expression `runes[a:b]` is defined only for `a ≤ b ≤ len`:
  where the source can violate these bounds (a run-time panic in Go) the
  model returns `none`;
- `time.Time` is modelled as an integer number of nanoseconds.
-/

namespace K3

/-- A Go string seen as its sequence of runes. -/
abbrev Str := List Char

/-- Build a `Str` from a string literal. -/
def s2l (s : String) : Str := s.data

/-- Go `len` on a string: the number of bytes of its UTF-8 encoding. -/
def utf8Len (s : Str) : Nat := (s.map Char.utf8Size).sum

/-- PostBlock (post.go): a unit of content for a post.  `text` is the
mandatory text; `link`, `mention` and `tag` are the optional feature
fields (Go `*string` pointers). -/
structure PostBlock where
  text : Str
  link : Option Str := none
  mention : Option Str := none
  tag : Option Str := none
deriving DecidableEq, Repr

/-- GetPlainText on a block (post.go): the block's text. -/
def PostBlock.getPlainText (b : PostBlock) : Str := b.text

/-- GetByteLength on a block (post.go): `len(b.Text)` in bytes. -/
def PostBlock.getByteLength (b : PostBlock) : Nat := utf8Len b.text

/-- GetGraphemeLength on a block (post.go): `len([]rune(b.Text))`. -/
def PostBlock.getGraphemeLength (b : PostBlock) : Nat := b.text.length

/-- Post (post.go): creation time, ordered blocks, language codes. -/
structure Post where
  creationTime : Option Int := none
  blocks : List PostBlock := []
  languages : List Str := []
deriving DecidableEq, Repr

/-- NewPost (post.go). -/
def NewPost : Post := {}

/-- GetPlainText (post.go): concatenation of all block texts. -/
def Post.getPlainText (p : Post) : Str := (p.blocks.map PostBlock.getPlainText).flatten

/-- GetGraphemeLength (post.go): the sum of the blocks' grapheme lengths. -/
def Post.getGraphemeLength (p : Post) : Nat :=
  (p.blocks.map PostBlock.getGraphemeLength).sum

/-- Go `emptyStrPtr` (inside AddBlock): nil pointer or empty pointee. -/
def emptyStrPtr : Option Str → Bool
  | none => true
  | some s => s.length == 0

/-- Go `eqStrPtr` (inside AddBlock): equal pointers or equal pointees;
on option values this is plain equality. -/
def eqStrPtr : Option Str → Option Str → Bool
  | none, none => true
  | some a, some b => a == b
  | _, _ => false

/-- The normalisation AddBlock applies to the incoming block before
comparing and storing it: a feature pointing at an empty string is
cleared to nil. -/
def normBlock (b : PostBlock) : PostBlock :=
  { b with
    link := if emptyStrPtr b.link then none else b.link
    mention := if emptyStrPtr b.mention then none else b.mention
    tag := if emptyStrPtr b.tag then none else b.tag }

/-- The feature comparison AddBlock performs against the latest block. -/
def sameFeatures (a b : PostBlock) : Bool :=
  eqStrPtr a.link b.link && eqStrPtr a.mention b.mention && eqStrPtr a.tag b.tag

/-- The append-or-merge on the block list: Go mutates the last element in
place (`latest.Text += block.Text`) when the features match, otherwise
appends. -/
def appendMerge : List PostBlock → PostBlock → List PostBlock
  | [], b => [b]
  | [l], b => if sameFeatures l b then [{ l with text := l.text ++ b.text }] else [l, b]
  | x :: y :: r, b => x :: appendMerge (y :: r) b

/-- AddBlock (post.go): drop empty text, normalise empty features to nil,
then append with possible merge into the latest block. -/
def Post.addBlock (p : Post) (b : PostBlock) : Post :=
  if b.text.length == 0 then p
  else { p with blocks := appendMerge p.blocks (normBlock b) }

/-- BlockFeature (post.go): a block mutator used by NewBlock. -/
abbrev BlockFeature := PostBlock → PostBlock

/-- WithLink (post.go). -/
def WithLink (link : Str) : BlockFeature := fun b => { b with link := some link }

/-- WithMention (post.go). -/
def WithMention (did : Str) : BlockFeature := fun b => { b with mention := some did }

/-- WithTag (post.go). -/
def WithTag (t : Str) : BlockFeature := fun b => { b with tag := some t }

/-- NewBlock (post.go): applies the given features, in order, to a fresh
block holding the text. -/
def NewBlock (text : Str) (features : List BlockFeature) : PostBlock :=
  features.foldl (fun b f => f b) { text := text }

/-- AddText (post.go). -/
def Post.addText (p : Post) (text : Str) : Post := p.addBlock (NewBlock text [])

/-- AddLink (post.go). -/
def Post.addLink (p : Post) (text uri : Str) : Post :=
  p.addBlock (NewBlock text [WithLink uri])

/-- AddMention (post.go). -/
def Post.addMention (p : Post) (text did : Str) : Post :=
  p.addBlock (NewBlock text [WithMention did])

/-- AddTag (post.go). -/
def Post.addTag (p : Post) (text t : Str) : Post :=
  p.addBlock (NewBlock text [WithTag t])

/-- AddLanguage (post.go). -/
def Post.addLanguage (p : Post) (lang : Str) : Post :=
  { p with languages := p.languages ++ [lang] }

/-- The triple of feature fields of a block. -/
def featuresOf (b : PostBlock) : Option Str × Option Str × Option Str :=
  (b.link, b.mention, b.tag)

theorem eqStrPtr_iff (a b : Option Str) : eqStrPtr a b = true ↔ a = b := by
  cases a <;> cases b <;> simp [eqStrPtr]

theorem sameFeatures_iff (a b : PostBlock) :
    sameFeatures a b = true ↔ featuresOf a = featuresOf b := by
  simp [sameFeatures, featuresOf, eqStrPtr_iff, Prod.ext_iff, and_assoc]

theorem appendMerge_last (init : List PostBlock) (l b : PostBlock) :
    appendMerge (init ++ [l]) b =
      init ++ (if sameFeatures l b then [{ l with text := l.text ++ b.text }] else [l, b]) := by
  induction init with
  | nil => simp [appendMerge]
  | cons x r ih =>
    cases r with
    | nil => simp [appendMerge, ih]
    | cons y r2 => simpa [appendMerge] using ih

theorem normBlock_text (b : PostBlock) : (normBlock b).text = b.text := rfl

theorem addBlock_merge (p : Post) (init : List PostBlock) (l b : PostBlock)
    (hb : p.blocks = init ++ [l]) (ht : b.text ≠ [])
    (hf : featuresOf (normBlock b) = featuresOf l) :
    (p.addBlock b).blocks = init ++ [{ l with text := l.text ++ b.text }] := by
  have hlen : (b.text.length == 0) = false := by
    simp only [beq_eq_false_iff_ne, ne_eq, List.length_eq_zero]; exact ht
  have hsame : sameFeatures l (normBlock b) = true := by
    rw [sameFeatures_iff]; exact hf.symm
  simp [Post.addBlock, hlen, hb, appendMerge_last, hsame, normBlock_text]

theorem addBlock_append (p : Post) (init : List PostBlock) (l b : PostBlock)
    (hb : p.blocks = init ++ [l]) (ht : b.text ≠ [])
    (hf : featuresOf (normBlock b) ≠ featuresOf l) :
    (p.addBlock b).blocks = p.blocks ++ [normBlock b] := by
  have hlen : (b.text.length == 0) = false := by
    simp only [beq_eq_false_iff_ne, ne_eq, List.length_eq_zero]; exact ht
  have hsame : sameFeatures l (normBlock b) = false := by
    rw [← Bool.not_eq_true, sameFeatures_iff]
    exact fun h => hf h.symm
  simp [Post.addBlock, hlen, hb, appendMerge_last, hsame]

theorem addBlock_empty (p : Post) (b : PostBlock) (ht : b.text = []) :
    p.addBlock b = p := by
  simp [Post.addBlock, ht]

/-- Claim C6: appending a block whose feature triple (after AddBlock's
empty-string normalisation) exactly equals the last existing block's
feature triple concatenates the text onto that last block; a differing
triple appends a new (normalised) block; an empty-text block is a no-op. -/
theorem claim_C6 (p : Post) (init : List PostBlock) (l b : PostBlock) :
    (p.blocks = init ++ [l] → b.text ≠ [] →
      featuresOf (normBlock b) = featuresOf l →
      (p.addBlock b).blocks = init ++ [{ l with text := l.text ++ b.text }]) ∧
    (p.blocks = init ++ [l] → b.text ≠ [] →
      featuresOf (normBlock b) ≠ featuresOf l →
      (p.addBlock b).blocks = p.blocks ++ [normBlock b]) ∧
    (b.text = [] → p.addBlock b = p) :=
  ⟨addBlock_merge p init l b, addBlock_append p init l b, addBlock_empty p b⟩

/-- Witness for C6 at concrete inputs: a matching-feature append merges,
a differing-feature append grows the list, and empty text is a no-op. -/
theorem claim_C6_witness :
    ((NewPost.addText (s2l "ab")).addBlock { text := s2l "cd" }).blocks =
        [] ++ [{ text := s2l "ab" ++ s2l "cd" }] ∧
    ((NewPost.addText (s2l "ab")).addBlock { text := s2l "cd", tag := some (s2l "k") }).blocks =
        (NewPost.addText (s2l "ab")).blocks ++ [normBlock { text := s2l "cd", tag := some (s2l "k") }] ∧
    (NewPost.addText (s2l "ab")).addBlock { text := [] } = NewPost.addText (s2l "ab") := by
  refine ⟨?_, ?_, ?_⟩
  · exact (claim_C6 (NewPost.addText (s2l "ab")) [] { text := s2l "ab" }
      { text := s2l "cd" }).1 (by decide) (by decide) (by decide)
  · exact (claim_C6 (NewPost.addText (s2l "ab")) [] { text := s2l "ab" }
      { text := s2l "cd", tag := some (s2l "k") }).2.1 (by decide) (by decide) (by decide)
  · exact (claim_C6 (NewPost.addText (s2l "ab")) [] { text := s2l "ab" }
      { text := [] }).2.2 (by decide)

/-- Claim C10: AddBlock normalises an empty-string feature to no feature
at all, so AddLink/AddMention/AddTag with an empty value behave exactly
like AddText, and such a block merges with a preceding plain-text block. -/
theorem claim_C10 (p : Post) (t : Str) (init : List PostBlock) (l : PostBlock) :
    p.addLink t [] = p.addText t ∧
    p.addMention t [] = p.addText t ∧
    p.addTag t [] = p.addText t ∧
    normBlock (NewBlock t [WithLink []]) = NewBlock t [] ∧
    (p.blocks = init ++ [l] → t ≠ [] →
      l.link = none → l.mention = none → l.tag = none →
      (p.addLink t []).blocks = init ++ [{ l with text := l.text ++ t }]) := by
  refine ⟨?_, ?_, ?_, ?_, ?_⟩
  · simp [Post.addLink, Post.addText, Post.addBlock, NewBlock, WithLink, normBlock,
      emptyStrPtr, List.foldl]
  · simp [Post.addMention, Post.addText, Post.addBlock, NewBlock, WithMention, normBlock,
      emptyStrPtr, List.foldl]
  · simp [Post.addTag, Post.addText, Post.addBlock, NewBlock, WithTag, normBlock,
      emptyStrPtr, List.foldl]
  · simp [NewBlock, WithLink, normBlock, emptyStrPtr, List.foldl]
  · intro hb ht h1 h2 h3
    refine addBlock_merge p init l _ hb ?_ ?_
    · simpa [NewBlock, WithLink, List.foldl] using ht
    · simp [NewBlock, WithLink, normBlock, emptyStrPtr, featuresOf, List.foldl, h1, h2, h3]

/-- Witness for C10: AddLink with an empty URI equals AddText, and merges
into a preceding plain block, at concrete inputs. -/
theorem claim_C10_witness :
    NewPost.addLink (s2l "ab") [] = NewPost.addText (s2l "ab") ∧
    ((NewPost.addText (s2l "ab")).addLink (s2l "cd") []).blocks =
      [] ++ [{ text := s2l "ab" ++ s2l "cd" }] := by
  refine ⟨(claim_C10 NewPost (s2l "ab") [] { text := [] }).1, ?_⟩
  exact (claim_C10 (NewPost.addText (s2l "ab")) (s2l "cd") [] { text := s2l "ab" }).2.2.2.2
    (by decide) (by decide) rfl rfl rfl

/-! ## The increasing clock -/

/-- One millisecond in nanoseconds (`time.Millisecond`); `time.Time` is
modelled as an integer number of nanoseconds. -/
def msNanos : Int := 1000000

/-- The increasingClock struct: `next` is the stored threshold; the Go
zero value of `time.Time` is the instant 0 in this model. -/
structure IncreasingClock where
  next : Int := 0
deriving DecidableEq, Repr

/-- increasingClock.Now: read the parent clock, raise the reading to
`next` when the parent is behind, store the returned value plus one
millisecond as the new `next`, and return the reading.  The parent
reading is passed as an argument. -/
def IncreasingClock.now (c : IncreasingClock) (parentNow : Int) : Int × IncreasingClock :=
  let n := if parentNow < c.next then c.next else parentNow
  (n, { next := n + msNanos })

/-- Run the wrapper over a sequence of parent clock readings, returning
the sequence of values Now hands out. -/
def runClock (c : IncreasingClock) : List Int → List Int
  | [] => []
  | t :: ts =>
    let r := c.now t
    r.1 :: runClock r.2 ts

theorem runClock_head_ge (ts : List Int) (c : IncreasingClock) :
    ∀ x ∈ (runClock c ts).head?, c.next ≤ x := by
  cases ts with
  | nil => intro x hx; simp [runClock] at hx
  | cons t ts =>
    intro x hx
    simp only [runClock, IncreasingClock.now, List.head?_cons, Option.mem_def,
      Option.some.injEq] at hx
    subst hx
    by_cases h : t < c.next
    · simp [h]
    · simp only [h, if_false]
      omega

theorem runClock_chain (parents : List Int) (c : IncreasingClock) :
    List.Chain' (fun a b => a + msNanos ≤ b) (runClock c parents) := by
  induction parents generalizing c with
  | nil => simp [runClock]
  | cons t ts ih =>
    rw [runClock, List.chain'_cons']
    refine ⟨?_, ih _⟩
    intro y hy
    have := runClock_head_ge ts (c.now t).2 y hy
    simpa [IncreasingClock.now] using this

/-- Claim C9: for every wrapper state and every sequence of parent clock
readings (stalling or backwards parents included), consecutive values
returned by Now grow by at least one millisecond, hence are strictly
increasing. -/
theorem claim_C9 (c : IncreasingClock) (parents : List Int) :
    List.Chain' (fun a b => a + msNanos ≤ b) (runClock c parents) ∧
    List.Chain' (fun a b => a < b) (runClock c parents) := by
  refine ⟨runClock_chain parents c, ?_⟩
  refine (runClock_chain parents c).imp ?_
  intro a b h
  have : (0 : Int) < msNanos := by norm_num [msNanos]
  omega

/-! ## The text importer: findAll and punctuation stripping -/

/-- The foundType enumeration (text.go): webUrl, username, tag, with
iota values 0, 1, 2. -/
inductive FoundType
  | webUrl
  | username
  | tag
deriving DecidableEq, Repr

/-- The iota constant of a foundType, as used by the sort comparator. -/
def FoundType.num : FoundType → Int
  | .webUrl => 0
  | .username => 1
  | .tag => 2

/-- The found struct (text.go): a half-open span plus its kind.  The Go
field `end` is called `stop` here because `end` is reserved in Lean. -/
structure Found where
  start : Nat
  stop : Nat
  what : FoundType
deriving DecidableEq, Repr

/-- isPunctuation (text.go). -/
def isPunctuation (c : Char) : Bool :=
  c == '.' || c == ',' || c == ')' || c == '?' || c == '!'

/-- Go slice `s[a:b]` on a rune sequence, for in-bounds `a ≤ b ≤ len`. -/
def goSlice (s : Str) (a b : Nat) : Str := (s.drop a).take (b - a)

/-- The stripping loop in findAll:
`for end > start && isPunctuation(str[end-1]) { end-- }`, written as
structural recursion on the end index. -/
def stripEnd (str : Str) (start : Nat) : Nat → Nat
  | 0 => 0
  | e + 1 =>
    if start < e + 1 && isPunctuation (str.getD e ' ') then stripEnd str start e
    else e + 1

/-- findAll (text.go).  `re.FindAllStringIndex` is a call into Go's
regexp library, an external collaborator; its raw list of `[start,end)`
spans is therefore supplied as an argument.  Each span has trailing
punctuation stripped and spans that become empty are skipped. -/
def findAllGo (str : Str) (ms : List (Nat × Nat)) (what : FoundType) : List Found :=
  ms.foldl
    (fun out m =>
      let e := stripEnd str m.1 m.2
      if m.1 == e then out else out ++ [{ start := m.1, stop := e, what := what }])
    []

/-- Removal of the maximal run of trailing punctuation characters: the
specification-level description of the stripping loop. -/
def rdropPunct (s : Str) : Str := (s.reverse.dropWhile isPunctuation).reverse

theorem goSlice_length (s : Str) (a b : Nat) (hb : b ≤ s.length) :
    (goSlice s a b).length = b - a := by
  simp only [goSlice, List.length_take, List.length_drop]
  omega

theorem goSlice_snoc (s : Str) (a b : Nat) (ha : a ≤ b) (hb : b < s.length) :
    goSlice s a (b + 1) = goSlice s a b ++ [s.getD b ' '] := by
  simp only [goSlice, Nat.succ_sub ha, List.take_succ]
  congr 1
  have h1 : (s.drop a)[b - a]? = s[a + (b - a)]? := List.getElem?_drop s a (b - a)
  have h2 : a + (b - a) = b := by omega
  rw [h1, h2]
  have h3 : s[b]? = some s[b] := List.getElem?_eq_getElem hb
  rw [h3]
  simp [List.getD, h3]

theorem rdropPunct_snoc_punct (s : Str) (c : Char) (hc : isPunctuation c = true) :
    rdropPunct (s ++ [c]) = rdropPunct s := by
  simp [rdropPunct, List.dropWhile, hc]

theorem rdropPunct_snoc_keep (s : Str) (c : Char) (hc : isPunctuation c = false) :
    rdropPunct (s ++ [c]) = s ++ [c] := by
  simp [rdropPunct, List.dropWhile, hc]

theorem stripEnd_spec (str : Str) : ∀ e start, start ≤ e → e ≤ str.length →
    stripEnd str start e = start + (rdropPunct (goSlice str start e)).length := by
  intro e
  induction e with
  | zero =>
    intro start h1 _
    have h0 : start = 0 := by omega
    subst h0
    simp [stripEnd, goSlice, rdropPunct]
  | succ e ih =>
    intro start h1 h2
    by_cases hs : start < e + 1
    · have hsl : goSlice str start (e + 1) = goSlice str start e ++ [str.getD e ' '] :=
        goSlice_snoc str start e (by omega) (by omega)
      cases hp : isPunctuation (str.getD e ' ') with
      | true =>
        have hc : (decide (start < e + 1) && isPunctuation (str.getD e ' ')) = true := by
          rw [hp, decide_eq_true hs]; rfl
        rw [stripEnd, if_pos hc, ih start (by omega) (by omega), hsl,
          rdropPunct_snoc_punct _ _ hp]
      | false =>
        have hc : (decide (start < e + 1) && isPunctuation (str.getD e ' ')) = false := by
          rw [hp, Bool.and_false]
        rw [stripEnd, if_neg (by rw [hc]; exact Bool.false_ne_true), hsl,
          rdropPunct_snoc_keep _ _ hp]
        rw [List.length_append, goSlice_length str start e (by omega)]
        simp only [List.length_cons, List.length_nil]
        omega
    · have hnd : decide (start < e + 1) = false := decide_eq_false hs
      rw [stripEnd, if_neg (by rw [hnd, Bool.false_and]; exact Bool.false_ne_true)]
      have hse : start = e + 1 := by omega
      rw [← hse]
      simp [goSlice, Nat.sub_self, rdropPunct]

theorem findAllGo_aux (str : Str) (what : FoundType) : ∀ (ms : List (Nat × Nat)) (acc : List Found),
    ms.foldl
      (fun out m =>
        let e := stripEnd str m.1 m.2
        if m.1 == e then out else out ++ [{ start := m.1, stop := e, what := what }])
      acc =
    acc ++ ms.filterMap (fun m =>
      if m.1 == stripEnd str m.1 m.2 then none
      else some { start := m.1, stop := stripEnd str m.1 m.2, what := what }) := by
  intro ms
  induction ms with
  | nil => intro acc; simp
  | cons m ms ihl =>
    intro acc
    rw [List.foldl_cons, List.filterMap_cons]
    cases hb : (m.1 == stripEnd str m.1 m.2) with
    | false => simp only [hb, Bool.false_eq_true, if_false, ihl, List.append_assoc,
        List.singleton_append]
    | true => simp only [hb, if_true, ihl, List.append_nil]

theorem findAllGo_eq_filterMap (str : Str) (ms : List (Nat × Nat)) (what : FoundType) :
    findAllGo str ms what = ms.filterMap (fun m =>
      if m.1 == stripEnd str m.1 m.2 then none
      else some { start := m.1, stop := stripEnd str m.1 m.2, what := what }) := by
  rw [findAllGo, findAllGo_aux, List.nil_append]

/-- Counterexample to claim C4: the stripping loop runs for hashtag
matches too.  The hashtag pattern `#[^\s#]+#?` matches all of `#tag.`
(the greedy run takes the final period), so the raw regexp span is
`[0, 5)`; findAll then strips the period, and the token offered to the
tag resolver is `#tag`, not `#tag.` — its trailing punctuation is not
intact. -/
theorem claim_C4_counterexample :
    findAllGo (s2l "#tag.") [(0, 5)] FoundType.tag =
      [{ start := 0, stop := 4, what := FoundType.tag }] ∧
    goSlice (s2l "#tag.") 0 4 = s2l "#tag" := by
  constructor <;> decide

/-- Claim C4 as amended: findAll strips trailing ASCII punctuation
(`. , ) ? !`) one character at a time from the end of every match,
whatever its kind (URL, username or hashtag alike — the spans do not
depend on the kind), and a match that becomes empty is discarded; the
surviving spans keep their start and lose exactly the maximal trailing
punctuation run. -/
theorem claim_C4_amended (str : Str) (ms : List (Nat × Nat)) (w : FoundType) :
    (∀ w' : FoundType, (findAllGo str ms w).map (fun f => (f.start, f.stop)) =
      (findAllGo str ms w').map (fun f => (f.start, f.stop))) ∧
    ((∀ m ∈ ms, m.1 ≤ m.2 ∧ m.2 ≤ str.length) →
      findAllGo str ms w = ms.filterMap (fun m =>
        let body := rdropPunct (goSlice str m.1 m.2)
        if body.length = 0 then none
        else some { start := m.1, stop := m.1 + body.length, what := w })) := by
  constructor
  · intro w'
    rw [findAllGo_eq_filterMap, findAllGo_eq_filterMap, List.map_filterMap,
      List.map_filterMap]
    apply List.filterMap_congr
    intro m _
    cases hb : (m.1 == stripEnd str m.1 m.2) <;> simp [hb]
  · intro hms
    rw [findAllGo_eq_filterMap]
    apply List.filterMap_congr
    intro m hm
    have hspec := stripEnd_spec str m.2 m.1 (hms m hm).1 (hms m hm).2
    rw [hspec]
    by_cases h : (rdropPunct (goSlice str m.1 m.2)).length = 0
    · have hb : (m.1 == m.1 + (rdropPunct (goSlice str m.1 m.2)).length) = true := by
        rw [h]; simp
      simp [hb, h]
    · have hb : (m.1 == m.1 + (rdropPunct (goSlice str m.1 m.2)).length) = false := by
        refine beq_eq_false_iff_ne.mpr ?_
        omega
      simp [hb, h]

/-- Witness for the amended C4 at a concrete input: a URL-kind span and
a tag-kind span over `ab.cd..` produce the same stripped span, matching
the trailing-punctuation characterisation. -/
theorem claim_C4_amended_witness :
    (findAllGo (s2l "ab.cd..") [(0, 7)] FoundType.webUrl).map (fun f => (f.start, f.stop)) =
      (findAllGo (s2l "ab.cd..") [(0, 7)] FoundType.tag).map (fun f => (f.start, f.stop)) ∧
    findAllGo (s2l "ab.cd..") [(0, 7)] FoundType.webUrl =
      [(0, 7)].filterMap (fun m =>
        let body := rdropPunct (goSlice (s2l "ab.cd..") m.1 m.2)
        if body.length = 0 then none
        else some { start := m.1, stop := m.1 + body.length, what := FoundType.webUrl }) :=
  ⟨(claim_C4_amended (s2l "ab.cd..") [(0, 7)] FoundType.webUrl).1 FoundType.tag,
   (claim_C4_amended (s2l "ab.cd..") [(0, 7)] FoundType.webUrl).2 (by decide)⟩

/-! ## The text importer: pooling, sorting and the cursor scan -/

/-- The comparator of sortFound (text.go): start ascending, then end
ascending, then kind priority (the iota order webUrl, username, tag). -/
def cmpFound (a b : Found) : Int :=
  if a.start ≠ b.start then (a.start : Int) - b.start
  else if a.stop ≠ b.stop then (a.stop : Int) - b.stop
  else a.what.num - b.what.num

/-- sortFound (text.go): `slices.SortFunc` with `cmpFound`.  Elements
tied under the comparator are equal `found` values, so any comparison
sort yields the same list; a merge sort stands in for Go's unstable
pattern-defeating quicksort. -/
def sortFound (fs : List Found) : List Found :=
  fs.mergeSort (fun a b => decide (cmpFound a b ≤ 0))

theorem cmpFound_le_iff (a b : Found) : cmpFound a b ≤ 0 ↔
    (a.start < b.start ∨ (a.start = b.start ∧
      (a.stop < b.stop ∨ (a.stop = b.stop ∧ a.what.num ≤ b.what.num)))) := by
  by_cases h1 : a.start = b.start
  · by_cases h2 : a.stop = b.stop
    · simp [cmpFound, h1, h2]
      try omega
    · simp [cmpFound, h1, h2]
      try omega
  · simp [cmpFound, h1]
    try omega

theorem cmpFound_trans (a b c : Found) :
    decide (cmpFound a b ≤ 0) = true → decide (cmpFound b c ≤ 0) = true →
    decide (cmpFound a c ≤ 0) = true := by
  simp only [decide_eq_true_iff, cmpFound_le_iff]
  omega

theorem cmpFound_total (a b : Found) :
    (decide (cmpFound a b ≤ 0) || decide (cmpFound b a ≤ 0)) = true := by
  simp only [Bool.or_eq_true, decide_eq_true_iff, cmpFound_le_iff]
  omega

/-- The importer configuration (text.go): the four pluggable resolvers.
Go's `url.URL` is an external library type, abstracted as `U`;
`urlString` stands for the `URL.String()` method. -/
structure ImportCfg (U : Type) where
  handleResolver : Str → Option Str
  urlResolver : Str → Option U
  urlFormatter : U → Str
  tagResolver : Str → Option Str
  urlString : U → Str

/-- One iteration of the scan loop in Import (text.go): reject a match
starting before the cursor, otherwise consult the resolver of its kind;
on success append the intervening plain text and the feature block and
advance the cursor to the match end. -/
def importStep {U : Type} (cfg : ImportCfg U) (text : Str)
    (acc : Post × Nat) (f : Found) : Post × Nat :=
  if acc.2 > f.start then acc
  else
    match f.what with
    | .webUrl =>
      match cfg.urlResolver (goSlice text f.start f.stop) with
      | some u =>
        ((acc.1.addText (goSlice text acc.2 f.start)).addLink
          (cfg.urlFormatter u) (cfg.urlString u), f.stop)
      | none => acc
    | .username =>
      match cfg.handleResolver ((goSlice text f.start f.stop).drop 1) with
      | some did =>
        ((acc.1.addText (goSlice text acc.2 f.start)).addMention
          (goSlice text f.start f.stop) did, f.stop)
      | none => acc
    | .tag =>
      match cfg.tagResolver (goSlice text f.start f.stop) with
      | some t =>
        ((acc.1.addText (goSlice text acc.2 f.start)).addTag
          (goSlice text f.start f.stop) t, f.stop)
      | none => acc

/-- Import (text.go), with the pooled regexp matches supplied as an
argument: sort the pool, scan it left to right with cursor `p`
initialised to 0, then append any trailing text. -/
def importGo {U : Type} (cfg : ImportCfg U) (text : Str) (pooled : List Found) : Post :=
  let r := (sortFound pooled).foldl (importStep cfg text) (NewPost, 0)
  if r.2 < text.length then r.1.addText (text.drop r.2) else r.1

theorem appendMerge_flat (l : List PostBlock) (b : PostBlock) :
    ((appendMerge l b).map PostBlock.getPlainText).flatten =
      (l.map PostBlock.getPlainText).flatten ++ b.text := by
  induction l with
  | nil => simp [appendMerge, PostBlock.getPlainText]
  | cons x r ih =>
    cases r with
    | nil =>
      by_cases h : sameFeatures x b
      · simp [appendMerge, h, PostBlock.getPlainText]
      · simp [appendMerge, h, PostBlock.getPlainText]
    | cons y r2 =>
      simp only [appendMerge, List.map_cons, List.flatten_cons]
      rw [ih]
      simp

theorem addBlock_plain (p : Post) (b : PostBlock) :
    (p.addBlock b).getPlainText = p.getPlainText ++ b.text := by
  by_cases h : (b.text.length == 0) = true
  · have ht : b.text = [] := by simpa [List.length_eq_zero] using h
    simp [Post.addBlock, h, ht]
  · have hb : (b.text.length == 0) = false := by
      simpa using h
    simp only [Post.addBlock, hb, Bool.false_eq_true, if_false, Post.getPlainText]
    rw [appendMerge_flat, normBlock_text]

theorem addText_plain (p : Post) (t : Str) :
    (p.addText t).getPlainText = p.getPlainText ++ t := addBlock_plain p _

theorem addLink_plain (p : Post) (t u : Str) :
    (p.addLink t u).getPlainText = p.getPlainText ++ t := addBlock_plain p _

theorem addMention_plain (p : Post) (t d : Str) :
    (p.addMention t d).getPlainText = p.getPlainText ++ t := addBlock_plain p _

theorem addTag_plain (p : Post) (t g : Str) :
    (p.addTag t g).getPlainText = p.getPlainText ++ t := addBlock_plain p _

/-- Claim C3: during Import's scan, a candidate starting before the
cursor is rejected with no resolver consulted (the outcome is the same
for every configuration); a declined candidate changes nothing; an
accepted candidate appends the intervening text as plain text, then the
matched span as a link/mention/tag block (for links the display text is
the formatted URL), and moves the cursor to the match end; trailing
text is appended verbatim; and the pool is scanned in (start, end,
kind-priority) order, kinds ordered URL, username, hashtag. -/
theorem claim_C3 {U : Type} (cfg : ImportCfg U) (text : Str) (out : Post) (p : Nat)
    (f : Found) (pooled : List Found) :
    (f.start < p → importStep cfg text (out, p) f = (out, p)) ∧
    (p ≤ f.start → f.what = .webUrl →
      cfg.urlResolver (goSlice text f.start f.stop) = none →
      importStep cfg text (out, p) f = (out, p)) ∧
    (p ≤ f.start → f.what = .username →
      cfg.handleResolver ((goSlice text f.start f.stop).drop 1) = none →
      importStep cfg text (out, p) f = (out, p)) ∧
    (p ≤ f.start → f.what = .tag →
      cfg.tagResolver (goSlice text f.start f.stop) = none →
      importStep cfg text (out, p) f = (out, p)) ∧
    (∀ u, p ≤ f.start → f.what = .webUrl →
      cfg.urlResolver (goSlice text f.start f.stop) = some u →
      importStep cfg text (out, p) f =
        ((out.addText (goSlice text p f.start)).addLink
          (cfg.urlFormatter u) (cfg.urlString u), f.stop)) ∧
    (∀ did, p ≤ f.start → f.what = .username →
      cfg.handleResolver ((goSlice text f.start f.stop).drop 1) = some did →
      importStep cfg text (out, p) f =
        ((out.addText (goSlice text p f.start)).addMention
          (goSlice text f.start f.stop) did, f.stop)) ∧
    (∀ t, p ≤ f.start → f.what = .tag →
      cfg.tagResolver (goSlice text f.start f.stop) = some t →
      importStep cfg text (out, p) f =
        ((out.addText (goSlice text p f.start)).addTag
          (goSlice text f.start f.stop) t, f.stop)) ∧
    ((importGo cfg text pooled).getPlainText =
      ((sortFound pooled).foldl (importStep cfg text) (NewPost, 0)).1.getPlainText ++
        text.drop ((sortFound pooled).foldl (importStep cfg text) (NewPost, 0)).2) ∧
    List.Pairwise (fun a b => a.start < b.start ∨ (a.start = b.start ∧
      (a.stop < b.stop ∨ (a.stop = b.stop ∧ a.what.num ≤ b.what.num)))) (sortFound pooled) ∧
    List.Perm (sortFound pooled) pooled := by
  refine ⟨?_, ?_, ?_, ?_, ?_, ?_, ?_, ?_, ?_, ?_⟩
  · intro h
    rw [importStep, if_pos h]
  · intro h1 h2 h3
    rw [importStep, if_neg (Nat.not_lt.mpr h1), h2, h3]
  · intro h1 h2 h3
    rw [importStep, if_neg (Nat.not_lt.mpr h1), h2, h3]
  · intro h1 h2 h3
    rw [importStep, if_neg (Nat.not_lt.mpr h1), h2, h3]
  · intro u h1 h2 h3
    rw [importStep, if_neg (Nat.not_lt.mpr h1), h2, h3]
  · intro did h1 h2 h3
    rw [importStep, if_neg (Nat.not_lt.mpr h1), h2, h3]
  · intro t h1 h2 h3
    rw [importStep, if_neg (Nat.not_lt.mpr h1), h2, h3]
  · rw [importGo]
    set r := (sortFound pooled).foldl (importStep cfg text) (NewPost, 0) with hr
    by_cases h : r.2 < text.length
    · simp only [h, if_true, addText_plain]
    · simp only [h, if_false]
      rw [List.drop_eq_nil_of_le (by omega), List.append_nil]
  · have := List.sorted_mergeSort cmpFound_trans cmpFound_total pooled
    refine this.imp ?_
    intro a b h
    exact (cmpFound_le_iff a b).mp (by simpa using h)
  · exact List.mergeSort_perm pooled _

/-- A concrete configuration for the C3 witness: only the handle
`valid.user` resolves. -/
def wCfg : ImportCfg Unit :=
  { handleResolver := fun h => if h == s2l "valid.user" then some (s2l "did1") else none
    urlResolver := fun _ => none
    urlFormatter := fun _ => []
    tagResolver := fun _ => none
    urlString := fun _ => [] }

/-- Witness for C3 at a concrete input: a match starting before the
cursor is dropped, and an accepted username match appends the plain
prefix and the mention span and advances the cursor. -/
theorem claim_C3_witness :
    importStep wCfg (s2l "hi @valid.user") (NewPost, 20) { start := 3, stop := 14, what := .username } =
      (NewPost, 20) ∧
    importStep wCfg (s2l "hi @valid.user") (NewPost, 0) { start := 3, stop := 14, what := .username } =
      ((NewPost.addText (goSlice (s2l "hi @valid.user") 0 3)).addMention
        (goSlice (s2l "hi @valid.user") 3 14) (s2l "did1"), 14) := by
  constructor
  · exact (claim_C3 wCfg (s2l "hi @valid.user") NewPost 20
      { start := 3, stop := 14, what := .username } []).1 (by decide)
  · exact (claim_C3 wCfg (s2l "hi @valid.user") NewPost 0
      { start := 3, stop := 14, what := .username } []).2.2.2.2.2.1 (s2l "did1")
      (by decide) rfl (by decide)

/-! ## The splitter: splitBlocks, groupBlocks, Split -/

/-- Go `unicode.IsSpace`: the Unicode White_Space property (the code
points 9-13, 32, 133, 160, 5760, 8192-8202, 8232, 8233, 8239, 8287 and
12288). -/
def goIsSpace (c : Char) : Bool :=
  let n := c.toNat
  (9 ≤ n && n ≤ 13) || n == 32 || n == 133 || n == 160 || n == 5760 ||
    (8192 ≤ n && n ≤ 8202) || n == 8232 || n == 8233 || n == 8239 || n == 8287 ||
    n == 12288

/-- maxPostGraphemeLength (posts package). -/
def maxPostGraphemeLength : Nat := 300

/-- The mutable state of splitBlocks: the accumulated output, the
`isText` flag, and the `start` index.  Go declares `start` outside the
block loop, so it carries over from one block to the next. -/
structure ScanState where
  output : List PostBlock
  isText : Bool
  start : Nat
deriving DecidableEq, Repr

/-- The `addBlock` closure in splitBlocks: append `runes[start:end]`
(with the source block's features) and move `start` to `end`.  Slicing
with `start > end` panics in Go: `none` here. -/
def scanAdd (bl : PostBlock) (runes : Str) (st : ScanState) (e : Nat) : Option ScanState :=
  if st.start ≤ e ∧ e ≤ runes.length then
    some { st with
      output := st.output ++ [{ bl with text := goSlice runes st.start e }]
      start := e }
  else none

/-- The rune loop of splitBlocks (`for i, r := range runes`), carrying
the running index `i`.  In the text state a space closes the word run;
a word rune at offset `i - start ≥ 100` forces a split (adding the
100-rune chunk and an empty spacer); in the space state a word rune
closes the space run. -/
def scanRunes (bl : PostBlock) (runes : Str) : Nat → List Char → ScanState → Option ScanState
  | _, [], st => some st
  | i, r :: rest, st =>
    if st.isText then
      if goIsSpace r then
        match scanAdd bl runes st i with
        | none => none
        | some st1 => scanRunes bl runes (i + 1) rest { st1 with isText := false }
      else if 100 ≤ i - st.start then
        match scanAdd bl runes st i with
        | none => none
        | some st1 =>
          match scanAdd bl runes st1 i with
          | none => none
          | some st2 => scanRunes bl runes (i + 1) rest st2
      else scanRunes bl runes (i + 1) rest st
    else
      if goIsSpace r then scanRunes bl runes (i + 1) rest st
      else
        match scanAdd bl runes st i with
        | none => none
        | some st1 => scanRunes bl runes (i + 1) rest { st1 with isText := true }

/-- One iteration of the outer block loop of splitBlocks: run the rune
loop, then `addBlock(len(runes))`. -/
def scanBlock (st : ScanState) (bl : PostBlock) : Option ScanState :=
  match scanRunes bl bl.text 0 bl.text st with
  | none => none
  | some st1 => scanAdd bl bl.text st1 bl.text.length

/-- The outer loop of splitBlocks over the post's blocks. -/
def scanBlocks : List PostBlock → ScanState → Option ScanState
  | [], st => some st
  | b :: bs, st =>
    match scanBlock st b with
    | none => none
    | some st1 => scanBlocks bs st1

/-- splitBlocks (posts package): words and the spacing between words,
in strict alternation starting with a word run. -/
def splitBlocksGo (blocks : List PostBlock) : Option (List PostBlock) :=
  match scanBlocks blocks { output := [], isText := true, start := 0 } with
  | none => none
  | some st => some st.output

/-- The word/space pairs `(blocks[i-1], blocks[i])` visited by the
grouping loop `for i := 2; i < len(blocks); i += 2` once the tail
`blocks[1:]` is taken; a trailing unpaired element is never visited. -/
def pairUp {α : Type} : List α → List (α × α)
  | a :: b :: rest => (a, b) :: pairUp rest
  | _ => []

/-- The trailing element the grouping loop never visits, if any. -/
def unpaired {α : Type} : List α → Option α
  | [] => none
  | [a] => some a
  | _ :: _ :: rest => unpaired rest

/-- The mutable state of one grouping pass: closed groups, the open
group, and the running length of the open group. -/
structure PackState where
  outGroups : List (List PostBlock)
  group : List PostBlock
  groupLen : Nat
deriving DecidableEq, Repr

/-- The `startGroup` closure in groupBlocks: open a group on a word
atom; the provisional numbering for position `len(outGroups)+1` under
the assumed bound contributes its byte length plus one. -/
def startGroup (partFn : Nat → Nat → Str) (maxCount : Nat)
    (outGroups : List (List PostBlock)) (b : PostBlock) : PackState :=
  { outGroups := outGroups
    group := [b]
    groupLen := b.getGraphemeLength + (utf8Len (partFn (outGroups.length + 1) maxCount) + 1) }

/-- The grouping loop body of groupBlocks for one assumed bound: close
the group when the next word atom would push the running length past
the limit (the separating space atom is not counted by the test),
otherwise append the space+word pair. -/
def packPairs (partFn : Nat → Nat → Str) (maxCount : Nat) :
    List (PostBlock × PostBlock) → PackState → PackState
  | [], st => st
  | (sp, w) :: rest, st =>
    if maxPostGraphemeLength < st.groupLen + w.getGraphemeLength then
      packPairs partFn maxCount rest
        (startGroup partFn maxCount (st.outGroups ++ [st.group]) w)
    else
      packPairs partFn maxCount rest
        { st with
          group := st.group ++ [sp, w]
          groupLen := st.groupLen + sp.getGraphemeLength + w.getGraphemeLength }

/-- One full grouping pass under an assumed bound: start on the first
atom, fold the pairs, close the last group. -/
def packOnce (partFn : Nat → Nat → Str) (maxCount : Nat) (b0 : PostBlock)
    (pairs : List (PostBlock × PostBlock)) : List (List PostBlock) :=
  let st := packPairs partFn maxCount pairs (startGroup partFn maxCount [] b0)
  st.outGroups ++ [st.group]

/-- Numbering injection once the true group count is known: a fresh
featureless block, prepended as `partFn(i+1, total) + " "` or appended
as `" " + partFn(i+1, total)`. -/
def numberGroups (partFn : Nat → Nat → Str) (usePfx : Bool)
    (groups : List (List PostBlock)) : List (List PostBlock) :=
  List.zipWith
    (fun i g =>
      if usePfx then NewBlock (partFn (i + 1) groups.length ++ [' ']) [] :: g
      else g ++ [NewBlock (' ' :: partFn (i + 1) groups.length) []])
    (List.range groups.length) groups

theorem packPairs_outGroups_le (partFn : Nat → Nat → Str) (maxCount : Nat) :
    ∀ (pairs : List (PostBlock × PostBlock)) (st : PackState),
    (packPairs partFn maxCount pairs st).outGroups.length ≤
      st.outGroups.length + pairs.length := by
  intro pairs
  induction pairs with
  | nil => intro st; simp [packPairs]
  | cons pr rest ih =>
    intro st
    obtain ⟨sp, w⟩ := pr
    rw [packPairs]
    by_cases h : maxPostGraphemeLength < st.groupLen + w.getGraphemeLength
    · rw [if_pos h]
      refine le_trans (ih _) ?_
      show (st.outGroups ++ [st.group]).length + rest.length ≤
        st.outGroups.length + (rest.length + 1)
      simp only [List.length_append, List.length_cons, List.length_nil]
      omega
    · rw [if_neg h]
      refine le_trans (ih _) ?_
      show st.outGroups.length + rest.length ≤ st.outGroups.length + (rest.length + 1)
      omega

theorem packOnce_length_le (partFn : Nat → Nat → Str) (maxCount : Nat) (b0 : PostBlock)
    (pairs : List (PostBlock × PostBlock)) :
    (packOnce partFn maxCount b0 pairs).length ≤ pairs.length + 1 := by
  have h1 := packPairs_outGroups_le partFn maxCount pairs (startGroup partFn maxCount [] b0)
  have h2 : (startGroup partFn maxCount [] b0).outGroups.length = 0 := rfl
  rw [h2] at h1
  simp only [packOnce, List.length_append, List.length_cons, List.length_nil]
  omega

/-- The fixed-point widening loop of groupBlocks: pack under the
assumed bound; if more groups than the bound came out, widen the bound
(9, 99, 999, ...) and repack; otherwise inject the numbering. -/
def groupWiden (partFn : Nat → Nat → Str) (usePfx : Bool) (b0 : PostBlock)
    (pairs : List (PostBlock × PostBlock)) (maxCount : Nat) : List (List PostBlock) :=
  let gs := packOnce partFn maxCount b0 pairs
  if h : maxCount < gs.length then
    groupWiden partFn usePfx b0 pairs (maxCount * 10 + 9)
  else numberGroups partFn usePfx gs
termination_by pairs.length + 2 - maxCount
decreasing_by
  have hb := packOnce_length_le partFn maxCount b0 pairs
  have hgs : gs.length = (packOnce partFn maxCount b0 pairs).length := rfl
  omega

/-- groupBlocks (posts package).  Go starts with `startGroup(0)`, which
indexes `blocks[0]`: on an empty atom list this panics, hence `none`
(Split never reaches that case). -/
def groupBlocksGo (partFn : Nat → Nat → Str) (usePfx : Bool)
    (blocks : List PostBlock) : Option (List (List PostBlock)) :=
  match blocks with
  | [] => none
  | b0 :: rest => some (groupWiden partFn usePfx b0 (pairUp rest) 9)

/-- DefaultPartFunction (posts package): `fmt.Sprintf("[%d/%d]", num, total)`. -/
def defaultPartFunction (num total : Nat) : Str :=
  '[' :: (Nat.toDigits 10 num ++ '/' :: (Nat.toDigits 10 total ++ [']']))

/-- The post assembly at the end of Split: a fresh post carrying the
original creation time and languages, with each group's blocks passed
through AddBlock. -/
def buildPost (ct : Option Int) (langs : List Str) (g : List PostBlock) : Post :=
  g.foldl Post.addBlock { creationTime := ct, blocks := [], languages := langs }

/-- Split (posts package), after option processing: `partFn` and
`usePfx` are the numbering function and prefix/suffix flag selected by
the SplitOption list (DefaultPartFunction and prefix when absent). -/
def SplitGo (partFn : Nat → Nat → Str) (usePfx : Bool) (post : Post) : Option (List Post) :=
  if post.getGraphemeLength ≤ maxPostGraphemeLength then some [post]
  else
    match splitBlocksGo post.blocks with
    | none => none
    | some atoms =>
      match groupBlocksGo partFn usePfx atoms with
      | none => none
      | some groups => some (groups.map (buildPost post.creationTime post.languages))

theorem groupWiden_stop (partFn : Nat → Nat → Str) (usePfx : Bool) (b0 : PostBlock)
    (pairs : List (PostBlock × PostBlock)) (m : Nat)
    (h : ¬ m < (packOnce partFn m b0 pairs).length) :
    groupWiden partFn usePfx b0 pairs m =
      numberGroups partFn usePfx (packOnce partFn m b0 pairs) := by
  unfold groupWiden
  exact dif_neg h

theorem groupWiden_widen (partFn : Nat → Nat → Str) (usePfx : Bool) (b0 : PostBlock)
    (pairs : List (PostBlock × PostBlock)) (m : Nat)
    (h : m < (packOnce partFn m b0 pairs).length) :
    groupWiden partFn usePfx b0 pairs m = groupWiden partFn usePfx b0 pairs (m * 10 + 9) := by
  conv_lhs => rw [groupWiden]
  exact dif_pos h

/-- Claim C5: a post already within the 300-grapheme limit is returned
as the one-element list holding the post itself, unchanged, for every
numbering function and placement flag. -/
theorem claim_C5 (partFn : Nat → Nat → Str) (usePfx : Bool) (post : Post)
    (h : post.getGraphemeLength ≤ 300) :
    SplitGo partFn usePfx post = some [post] := by
  rw [SplitGo]
  exact if_pos h

/-- Witness for C5 at a concrete input. -/
theorem claim_C5_witness :
    (NewPost.addText (s2l "hola")).getGraphemeLength ≤ 300 ∧
    SplitGo defaultPartFunction true (NewPost.addText (s2l "hola")) =
      some [NewPost.addText (s2l "hola")] :=
  ⟨by decide, claim_C5 defaultPartFunction true (NewPost.addText (s2l "hola")) (by decide)⟩

/-! ## Concrete splitter runs -/

set_option maxRecDepth 10000

/-- A word of `n` letters. -/
def aWord (n : Nat) : Str := List.replicate n 'a'

/-- A single-block post of four space-separated words of 100, 100, 93
and 5 letters: 301 graphemes, one over the limit. -/
def pC1 : Post :=
  { blocks := [{ text := aWord 100 ++ ' ' :: (aWord 100 ++ ' ' :: (aWord 93 ++ ' ' :: aWord 5)) }] }

/-- The first atom splitBlocks produces for `pC1`. -/
def b0C1 : PostBlock := { text := aWord 100 }

/-- The remaining atoms splitBlocks produces for `pC1`. -/
def restC1 : List PostBlock :=
  [{ text := [' '] }, { text := aWord 100 }, { text := [' '] }, { text := aWord 93 },
   { text := [' '] }, { text := aWord 5 }]

theorem splitBlocks_pC1 : splitBlocksGo pC1.blocks = some (b0C1 :: restC1) := by decide

theorem SplitGo_pC1 : SplitGo defaultPartFunction true pC1 =
    some ((numberGroups defaultPartFunction true
      (packOnce defaultPartFunction 9 b0C1 (pairUp restC1))).map
        (buildPost pC1.creationTime pC1.languages)) := by
  have h2 : groupWiden defaultPartFunction true b0C1 (pairUp restC1) 9 =
      numberGroups defaultPartFunction true
        (packOnce defaultPartFunction 9 b0C1 (pairUp restC1)) :=
    groupWiden_stop _ _ _ _ _ (by decide)
  rw [SplitGo, if_neg (by decide), splitBlocks_pC1]
  show (some ((groupWiden defaultPartFunction true b0C1 (pairUp restC1) 9).map
      (buildPost pC1.creationTime pC1.languages))) =
    some ((numberGroups defaultPartFunction true
      (packOnce defaultPartFunction 9 b0C1 (pairUp restC1))).map
        (buildPost pC1.creationTime pC1.languages))
  rw [h2]

/-- Claim C1 evaluated at the failing input: `pC1` exceeds the limit
(301 graphemes) and is split with the default numbering function, yet
the first returned post has grapheme length 301 > 300.  The admission
test in groupBlocks (`groupLen+bl > maxPostGraphemeLength`) omits the
separating space atom that is then appended along with the word, so the
running length — and the finished post — can end up over the limit,
contrary to groupBlocks' own documentation that the groups fit within
the limits. -/
theorem claim_C1_failing :
    300 < pC1.getGraphemeLength ∧
    (SplitGo defaultPartFunction true pC1).map (fun l => l.map Post.getGraphemeLength) =
      some [301, 11] ∧
    ∃ q ∈ (SplitGo defaultPartFunction true pC1).getD [], 300 < q.getGraphemeLength := by
  refine ⟨by decide, ?_, ?_⟩
  · rw [SplitGo_pC1]
    decide
  · rw [SplitGo_pC1]
    decide

/-- A two-block post over the limit: 299 letters and a space in the
first block, `cd` in the second. -/
def pC7 : Post :=
  { blocks := [{ text := aWord 299 ++ [' '] }, { text := s2l "cd" }] }

/-- Claim C7 evaluated at the failing input: on the two-block post
`pC7` (302 graphemes) Split produces no output sequence at all.  The
`start` cursor of splitBlocks is declared outside the block loop, so at
the second block's first rune the slice `runes[start:0]` has
`start = 300 > 0` — a slice-bounds panic in Go, `none` here — before
the widening loop is ever reached. -/
theorem claim_C7_failing : SplitGo defaultPartFunction true pC7 = none := by
  have h1 : splitBlocksGo pC7.blocks = none := by decide
  rw [SplitGo, if_neg (by decide), h1]

/-- Counterexample to claim C2: stripping each output post's numbering
block (six characters, `[k/2] `) and concatenating does not restore the
original plain text of `pC1`: the space atom that separated the two
groups (between the 93-letter word and the 5-letter word) is dropped by
the grouping loop and belongs to no output post. -/
theorem claim_C2_counterexample :
    (SplitGo defaultPartFunction true pC1).map
        (fun l => (l.map (fun q => q.getPlainText.drop 6)).flatten) =
      some (aWord 100 ++ ' ' :: (aWord 100 ++ ' ' :: aWord 98)) ∧
    aWord 100 ++ ' ' :: (aWord 100 ++ ' ' :: aWord 98) ≠ pC1.getPlainText := by
  refine ⟨?_, by decide⟩
  rw [SplitGo_pC1]
  decide

/-! ## Reconstruction: specification-level vocabulary and small lemmas -/

/-- The concatenated text of a run of blocks. -/
def flatTexts (l : List PostBlock) : Str := (l.map PostBlock.getPlainText).flatten

/-- A string consisting of whitespace runes only. -/
def wsOnly (s : Str) : Bool := s.all goIsSpace

/-- The alternation invariant of the splitBlocks output: every
odd-indexed atom is a whitespace run. -/
def atomInv (out : List PostBlock) : Prop :=
  ∀ i (h : i < out.length), i % 2 = 1 → wsOnly (out[i].text) = true

/-- The text covered by a list of space/word pairs. -/
def pairsText : List (PostBlock × PostBlock) → Str
  | [] => []
  | (sp, w) :: rest => sp.text ++ (w.text ++ pairsText rest)

/-- Join a list of contents with one separator between neighbours. -/
def interJoin : List Str → List Str → Str
  | [], _ => []
  | c :: _, [] => c
  | c :: cs, s :: ss => c ++ s ++ interJoin cs ss

/-- The text of the trailing unpaired atom, if any. -/
def unpairedText (l : List PostBlock) : Str :=
  match unpaired l with
  | none => []
  | some a => a.text

theorem wsOnly_append (a b : Str) : wsOnly (a ++ b) = (wsOnly a && wsOnly b) := by
  simp [wsOnly, List.all_append]

theorem flatTexts_append (l1 l2 : List PostBlock) :
    flatTexts (l1 ++ l2) = flatTexts l1 ++ flatTexts l2 := by
  simp [flatTexts]

theorem flatTexts_cons (b : PostBlock) (l : List PostBlock) :
    flatTexts (b :: l) = b.text ++ flatTexts l := by
  simp [flatTexts, PostBlock.getPlainText]

theorem flatTexts_single (b : PostBlock) : flatTexts [b] = b.text := by
  simp [flatTexts, PostBlock.getPlainText]

theorem getPlainText_eq_flatTexts (p : Post) : p.getPlainText = flatTexts p.blocks := rfl

theorem goSlice_refl (l : Str) (a : Nat) : goSlice l a a = [] := by
  simp [goSlice]

theorem take_goSlice (l : Str) (s i : Nat) (h : s ≤ i) :
    l.take s ++ goSlice l s i = l.take i := by
  have hi : i = s + (i - s) := by omega
  conv_rhs => rw [hi]
  rw [List.take_add]
  rfl

theorem scanAdd_some (bl : PostBlock) (runes : Str) (st : ScanState) (e : Nat)
    (h1 : st.start ≤ e) (h2 : e ≤ runes.length) :
    scanAdd bl runes st e = some { st with
      output := st.output ++ [{ bl with text := goSlice runes st.start e }]
      start := e } := by
  rw [scanAdd, if_pos ⟨h1, h2⟩]

theorem atomInv_nil : atomInv [] := by
  intro i h
  simp at h

theorem atomInv_append (out : List PostBlock) (a : PostBlock)
    (h1 : atomInv out) (h2 : out.length % 2 = 1 → wsOnly a.text = true) :
    atomInv (out ++ [a]) := by
  intro i hi hodd
  by_cases hlt : i < out.length
  · rw [List.getElem_append_left hlt]
    exact h1 i hlt hodd
  · have hieq : i = out.length := by
      simp only [List.length_append, List.length_cons, List.length_nil] at hi
      omega
    subst hieq
    rw [List.getElem_append_right (le_refl _)]
    simpa using h2 hodd

/-- The alternation invariant restricted to the tail after the first
atom: even local indices are whitespace runs. -/
def restInv (rest : List PostBlock) : Prop :=
  ∀ j (h : j < rest.length), j % 2 = 0 → wsOnly (rest[j].text) = true

theorem atomInv_restInv (b0 : PostBlock) (rest : List PostBlock)
    (h : atomInv (b0 :: rest)) : restInv rest := by
  intro j hj hev
  have := h (j + 1) (by simpa using Nat.succ_lt_succ hj) (by omega)
  simpa using this

theorem restInv_tail2 (a b : PostBlock) (r : List PostBlock)
    (h : restInv (a :: b :: r)) : restInv r := by
  intro j hj hev
  have := h (j + 2) (by simp; omega) (by omega)
  simpa using this

theorem pairUp_fst_ws : ∀ (rest : List PostBlock), restInv rest →
    ∀ pr ∈ pairUp rest, wsOnly pr.1.text = true
  | [], _, pr, hpr => by simp [pairUp] at hpr
  | [a], _, pr, hpr => by simp [pairUp] at hpr
  | a :: b :: r, h, pr, hpr => by
    rw [pairUp] at hpr
    rcases List.mem_cons.mp hpr with heq | hmem
    · subst heq
      exact h 0 (by simp) rfl
    · exact pairUp_fst_ws r (restInv_tail2 a b r h) pr hmem

theorem unpaired_ws : ∀ (rest : List PostBlock), restInv rest →
    ∀ x, unpaired rest = some x → wsOnly x.text = true
  | [], _, x, hx => by simp [unpaired] at hx
  | [a], h, x, hx => by
    rw [unpaired] at hx
    cases hx
    exact h 0 (by simp) rfl
  | a :: b :: r, h, x, hx => by
    rw [unpaired] at hx
    exact unpaired_ws r (restInv_tail2 a b r h) x hx

theorem unpairedText_ws (rest : List PostBlock) (h : restInv rest) :
    wsOnly (unpairedText rest) = true := by
  rw [unpairedText]
  cases hu : unpaired rest with
  | none => rfl
  | some a => exact unpaired_ws rest h a hu

theorem rest_decomp : ∀ (l : List PostBlock),
    flatTexts l = pairsText (pairUp l) ++ unpairedText l
  | [] => by simp [flatTexts, pairsText, pairUp, unpairedText, unpaired]
  | [a] => by
    simp [flatTexts, pairsText, pairUp, unpairedText, unpaired, PostBlock.getPlainText]
  | a :: b :: r => by
    rw [pairUp, pairsText, flatTexts_cons, flatTexts_cons, rest_decomp r]
    have : unpairedText (a :: b :: r) = unpairedText r := by
      rw [unpairedText, unpairedText, unpaired]
    rw [this]
    simp [List.append_assoc]

theorem interJoin_zip : ∀ (cs ss : List Str) (t : Str), cs.length = ss.length + 1 →
    (List.zipWith (fun c s => c ++ s) cs (ss ++ [t])).flatten = interJoin cs ss ++ t
  | [], ss, t, h => by simp at h
  | [c], [], t, h => by simp [interJoin]
  | [c], s :: ss, t, h => by simp at h
  | c1 :: c2 :: cs, [], t, h => by simp at h
  | c1 :: c2 :: cs, s :: ss, t, h => by
    rw [List.cons_append, List.zipWith_cons_cons, List.flatten_cons,
      interJoin, interJoin_zip (c2 :: cs) ss t (by simpa using h)]
    simp [List.append_assoc]

/-- The invariant bundle of the rune loop on a single block: no panic,
the run under construction starts at `start ≤ i`, the flag mirrors the
output parity, the output covers `runes[:start]`, a pending space run is
whitespace, and odd-indexed atoms are whitespace. -/
theorem scanRunes_ok (bl : PostBlock) (runes : Str) :
    ∀ (rest : List Char) (i : Nat) (st : ScanState),
    rest = runes.drop i → i ≤ runes.length → st.start ≤ i →
    (st.isText = true → st.output.length % 2 = 0) →
    (st.isText = false → st.output.length % 2 = 1) →
    flatTexts st.output = runes.take st.start →
    (st.isText = false → wsOnly (goSlice runes st.start i) = true) →
    atomInv st.output →
    ∃ st', scanRunes bl runes i rest st = some st' ∧
      st'.start ≤ runes.length ∧
      (st'.isText = true → st'.output.length % 2 = 0) ∧
      (st'.isText = false → st'.output.length % 2 = 1) ∧
      flatTexts st'.output = runes.take st'.start ∧
      (st'.isText = false → wsOnly (goSlice runes st'.start runes.length) = true) ∧
      atomInv st'.output := by
  intro rest
  induction rest with
  | nil =>
    intro i st hdrop hi hsi hpt hpf hflat hpend hinv
    have hieq : i = runes.length := by
      have hlen := congrArg List.length hdrop
      simp only [List.length_nil, List.length_drop] at hlen
      omega
    subst hieq
    exact ⟨st, rfl, hsi, hpt, hpf, hflat, hpend, hinv⟩
  | cons r rest' ih =>
    intro i st hdrop hi hsi hpt hpf hflat hpend hinv
    have hlt : i < runes.length := by
      rcases Nat.lt_or_ge i runes.length with h | h
      · exact h
      · rw [List.drop_eq_nil_of_le h] at hdrop
        exact absurd hdrop (by simp)
    have hle1 : i + 1 ≤ runes.length := hlt
    have hget : runes[i]? = some r := by
      have h0 : (runes.drop i)[0]? = runes[i + 0]? := List.getElem?_drop runes i 0
      rw [← hdrop] at h0
      simpa using h0.symm
    have hgetD : runes.getD i ' ' = r := by
      rw [List.getD_eq_getElem?_getD, hget]
      rfl
    have hdrop1 : rest' = runes.drop (i + 1) := by
      have h2 : rest' = (runes.drop i).drop 1 := by
        rw [← hdrop]
        rfl
      rw [List.drop_drop] at h2
      rw [h2, Nat.add_comm]
    have hsnoc : goSlice runes i (i + 1) = [r] := by
      rw [goSlice_snoc runes i i (le_refl i) hlt, goSlice_refl, hgetD]
      rfl
    cases hT : st.isText with
    | true =>
      have heven : st.output.length % 2 = 0 := hpt hT
      cases hsp : goIsSpace r with
      | true =>
        obtain ⟨st', hrec, hprops⟩ := ih (i + 1)
          { output := st.output ++ [{ bl with text := goSlice runes st.start i }]
            isText := false
            start := i }
          hdrop1 hle1 (by show i ≤ i + 1; omega)
          (by intro h; exact absurd h (by simp))
          (by intro _; simp only [List.length_append, List.length_cons, List.length_nil]; omega)
          (by
            rw [flatTexts_append, hflat, flatTexts_single]
            exact take_goSlice runes st.start i hsi)
          (by
            intro _
            rw [hsnoc]
            simp [wsOnly, hsp])
          (by
            refine atomInv_append _ _ hinv ?_
            intro hodd
            exact absurd hodd (by omega))
        refine ⟨st', ?_, hprops⟩
        rw [scanRunes, hT, hsp]
        simp only [if_true]
        rw [scanAdd_some bl runes st i hsi (le_of_lt hlt)]
        exact hrec
      | false =>
        by_cases hforce : 100 ≤ i - st.start
        · obtain ⟨st', hrec, hprops⟩ := ih (i + 1)
            { output := (st.output ++ [{ bl with text := goSlice runes st.start i }]) ++
                [{ bl with text := goSlice runes i i }]
              isText := st.isText
              start := i }
            hdrop1 hle1 (by show i ≤ i + 1; omega)
            (by
              intro _
              simp only [List.length_append, List.length_cons, List.length_nil]
              omega)
            (by
              intro h
              rw [hT] at h
              exact absurd h (by simp))
            (by
              rw [flatTexts_append, flatTexts_append, hflat, flatTexts_single,
                flatTexts_single]
              show (runes.take st.start ++ goSlice runes st.start i) ++ goSlice runes i i =
                runes.take i
              rw [take_goSlice runes st.start i hsi, goSlice_refl, List.append_nil])
            (by
              intro h
              rw [hT] at h
              exact absurd h (by simp))
            (by
              refine atomInv_append _ _ ?_ ?_
              · refine atomInv_append _ _ hinv ?_
                intro hodd
                exact absurd hodd (by omega)
              · intro _
                show wsOnly (goSlice runes i i) = true
                rw [goSlice_refl]
                rfl)
          refine ⟨st', ?_, hprops⟩
          rw [scanRunes, hT, hsp]
          simp only [Bool.false_eq_true, if_false, if_true]
          rw [if_pos hforce]
          rw [scanAdd_some bl runes st i hsi (le_of_lt hlt)]
          show (match scanAdd bl runes
              { st with
                output := st.output ++ [{ bl with text := goSlice runes st.start i }]
                start := i } i with
            | none => none
            | some st2 => scanRunes bl runes (i + 1) rest' st2) = some st'
          rw [scanAdd_some bl runes
            { st with
              output := st.output ++ [{ bl with text := goSlice runes st.start i }]
              start := i }
            i (le_refl i) (le_of_lt hlt)]
          exact hrec
        · obtain ⟨st', hrec, hprops⟩ := ih (i + 1) st hdrop1 hle1 (by omega) hpt hpf hflat
            (by
              intro h
              rw [hT] at h
              exact absurd h (by simp))
            hinv
          refine ⟨st', ?_, hprops⟩
          rw [scanRunes, hT, hsp]
          simp only [Bool.false_eq_true, if_false, if_true]
          rw [if_neg hforce]
          exact hrec
    | false =>
      have hodd : st.output.length % 2 = 1 := hpf hT
      cases hsp : goIsSpace r with
      | true =>
        obtain ⟨st', hrec, hprops⟩ := ih (i + 1) st hdrop1 hle1 (by omega) hpt hpf hflat
          (by
            intro _
            rw [goSlice_snoc runes st.start i hsi hlt, hgetD, wsOnly_append]
            rw [hpend hT]
            simp [wsOnly, hsp])
          hinv
        refine ⟨st', ?_, hprops⟩
        rw [scanRunes, hT, hsp]
        simp only [Bool.false_eq_true, if_false, if_true]
        exact hrec
      | false =>
        obtain ⟨st', hrec, hprops⟩ := ih (i + 1)
          { output := st.output ++ [{ bl with text := goSlice runes st.start i }]
            isText := true
            start := i }
          hdrop1 hle1 (by show i ≤ i + 1; omega)
          (by intro _; simp only [List.length_append, List.length_cons, List.length_nil]; omega)
          (by intro h; exact absurd h (by simp))
          (by
            rw [flatTexts_append, hflat, flatTexts_single]
            exact take_goSlice runes st.start i hsi)
          (by intro h; exact absurd h (by simp))
          (by
            refine atomInv_append _ _ hinv ?_
            intro _
            exact hpend hT)
        refine ⟨st', ?_, hprops⟩
        rw [scanRunes, hT, hsp]
        simp only [Bool.false_eq_true, if_false]
        rw [scanAdd_some bl runes st i hsi (le_of_lt hlt)]
        exact hrec

/-- splitBlocks on a single-block post: no panic, the atoms cover the
block's text exactly, and odd-indexed atoms are whitespace runs. -/
theorem splitBlocks_single (b : PostBlock) :
    ∃ atoms, splitBlocksGo [b] = some atoms ∧ atoms ≠ [] ∧
      flatTexts atoms = b.text ∧ atomInv atoms := by
  obtain ⟨st', hrec, hstart, hpt, hpf, hflat, hpend, hinv⟩ :=
    scanRunes_ok b b.text b.text 0 { output := [], isText := true, start := 0 }
      (by simp) (by simp) (le_refl 0)
      (fun _ => rfl)
      (by intro h; exact absurd h (by simp))
      rfl
      (by intro h; exact absurd h (by simp))
      atomInv_nil
  have hfin := scanAdd_some b b.text st' b.text.length hstart (le_refl _)
  have h1 : scanBlock { output := [], isText := true, start := 0 } b =
      some { st' with
        output := st'.output ++ [{ b with text := goSlice b.text st'.start b.text.length }]
        start := b.text.length } := by
    rw [scanBlock, hrec]
    exact hfin
  refine ⟨st'.output ++ [{ b with text := goSlice b.text st'.start b.text.length }],
    ?_, by simp, ?_, ?_⟩
  · rw [splitBlocksGo, scanBlocks, h1]
    rfl
  · rw [flatTexts_append, hflat, flatTexts_single]
    show b.text.take st'.start ++ goSlice b.text st'.start b.text.length = b.text
    rw [take_goSlice b.text st'.start b.text.length hstart, List.take_length]
  · refine atomInv_append _ _ hinv ?_
    intro hodd
    cases hT : st'.isText with
    | true => exact absurd hodd (by have := hpt hT; omega)
    | false => exact hpend hT

/-- The grouping fold partitions the atoms in order: the groups it
closes (plus the open one) extend the groups already closed; each new
boundary drops exactly the whitespace atom of the pair whose word
opened the next group; interleaving the group contents with those
dropped separators restores the text of the fold's input. -/
theorem packPairs_spec (partFn : Nat → Nat → Str) (maxCount : Nat) :
    ∀ (pairs : List (PostBlock × PostBlock)) (st : PackState),
    (∀ pr ∈ pairs, wsOnly pr.1.text = true) →
    ∃ (newGs : List (List PostBlock)) (ss : List Str),
      (packPairs partFn maxCount pairs st).outGroups ++
          [(packPairs partFn maxCount pairs st).group] = st.outGroups ++ newGs ∧
      newGs.length = ss.length + 1 ∧
      (∀ s ∈ ss, wsOnly s = true) ∧
      interJoin (newGs.map flatTexts) ss = flatTexts st.group ++ pairsText pairs := by
  intro pairs
  induction pairs with
  | nil =>
    intro st hws
    refine ⟨[st.group], [], rfl, rfl, by simp, ?_⟩
    simp [interJoin, pairsText]
  | cons pr rest ih =>
    intro st hws
    obtain ⟨sp, w⟩ := pr
    rw [packPairs]
    by_cases h : maxPostGraphemeLength < st.groupLen + w.getGraphemeLength
    · rw [if_pos h]
      obtain ⟨newGs', ss', hgs, hlen, hss, hjoin⟩ :=
        ih (startGroup partFn maxCount (st.outGroups ++ [st.group]) w)
          (fun q hq => hws q (List.mem_cons_of_mem _ hq))
      refine ⟨st.group :: newGs', sp.text :: ss', ?_, ?_, ?_, ?_⟩
      · rw [hgs]
        show (st.outGroups ++ [st.group]) ++ newGs' = st.outGroups ++ (st.group :: newGs')
        simp
      · simp [hlen]
      · intro s hs
        rcases List.mem_cons.mp hs with heq | hmem
        · subst heq
          exact hws (sp, w) (List.mem_cons_self _ _)
        · exact hss s hmem
      · rw [List.map_cons, interJoin, hjoin]
        show flatTexts st.group ++ sp.text ++ (flatTexts [w] ++ pairsText rest) =
          flatTexts st.group ++ pairsText ((sp, w) :: rest)
        rw [flatTexts_single, pairsText]
        simp [List.append_assoc]
    · rw [if_neg h]
      obtain ⟨newGs, ss, hgs, hlen, hss, hjoin⟩ :=
        ih { st with
              group := st.group ++ [sp, w]
              groupLen := st.groupLen + sp.getGraphemeLength + w.getGraphemeLength }
          (fun q hq => hws q (List.mem_cons_of_mem _ hq))
      refine ⟨newGs, ss, ?_, hlen, hss, ?_⟩
      · rw [hgs]
      · rw [hjoin]
        show flatTexts (st.group ++ [sp, w]) ++ pairsText rest =
          flatTexts st.group ++ pairsText ((sp, w) :: rest)
        rw [flatTexts_append, pairsText]
        simp [flatTexts, PostBlock.getPlainText, List.append_assoc]

theorem packOnce_spec (partFn : Nat → Nat → Str) (maxCount : Nat) (b0 : PostBlock)
    (pairs : List (PostBlock × PostBlock))
    (hws : ∀ pr ∈ pairs, wsOnly pr.1.text = true) :
    ∃ ss : List Str,
      (packOnce partFn maxCount b0 pairs).length = ss.length + 1 ∧
      (∀ s ∈ ss, wsOnly s = true) ∧
      interJoin ((packOnce partFn maxCount b0 pairs).map flatTexts) ss =
        b0.text ++ pairsText pairs := by
  obtain ⟨newGs, ss, hgs, hlen, hss, hjoin⟩ :=
    packPairs_spec partFn maxCount pairs (startGroup partFn maxCount [] b0) hws
  have hpack : packOnce partFn maxCount b0 pairs = newGs := by
    rw [packOnce]
    exact hgs.trans (List.nil_append newGs)
  rw [hpack]
  refine ⟨ss, hlen, hss, hjoin.trans ?_⟩
  show flatTexts [b0] ++ pairsText pairs = b0.text ++ pairsText pairs
  rw [flatTexts_single]

theorem groupWiden_exists (partFn : Nat → Nat → Str) (usePfx : Bool) (b0 : PostBlock)
    (pairs : List (PostBlock × PostBlock)) :
    ∀ (fuel m : Nat), pairs.length + 2 - m ≤ fuel →
    ∃ m', groupWiden partFn usePfx b0 pairs m =
      numberGroups partFn usePfx (packOnce partFn m' b0 pairs) := by
  intro fuel
  induction fuel with
  | zero =>
    intro m hm
    have hlen := packOnce_length_le partFn m b0 pairs
    exact ⟨m, groupWiden_stop _ _ _ _ _ (by omega)⟩
  | succ fuel ihf =>
    intro m hm
    by_cases h : m < (packOnce partFn m b0 pairs).length
    · have hlen := packOnce_length_le partFn m b0 pairs
      rw [groupWiden_widen _ _ _ _ _ h]
      exact ihf (m * 10 + 9) (by omega)
    · exact ⟨m, groupWiden_stop _ _ _ _ _ h⟩

theorem foldl_addBlock_plain (g : List PostBlock) : ∀ (p : Post),
    (g.foldl Post.addBlock p).getPlainText = p.getPlainText ++ flatTexts g := by
  induction g with
  | nil =>
    intro p
    simp [flatTexts]
  | cons b g ihg =>
    intro p
    rw [List.foldl_cons, ihg, addBlock_plain, flatTexts_cons]
    simp [List.append_assoc]

theorem buildPost_plain (ct : Option Int) (langs : List Str) (g : List PostBlock) :
    (buildPost ct langs g).getPlainText = flatTexts g := by
  rw [buildPost, foldl_addBlock_plain]
  show ({ creationTime := ct, blocks := [], languages := langs } : Post).getPlainText ++
      flatTexts g = flatTexts g
  simp [Post.getPlainText]

theorem numberGroups_posts_plain (partFn : Nat → Nat → Str) (ct : Option Int)
    (langs : List Str) (groups : List (List PostBlock)) :
    ((numberGroups partFn true groups).map (buildPost ct langs)).map Post.getPlainText =
      List.zipWith (fun i c => partFn (i + 1) groups.length ++ ' ' :: c)
        (List.range groups.length) (groups.map flatTexts) := by
  apply List.ext_getElem
  · simp [numberGroups]
  · intro n h1 h2
    have h3 : n < groups.length := by
      simp [numberGroups] at h1
      omega
    simp only [numberGroups, List.map_map, List.getElem_map, List.getElem_zipWith,
      List.getElem_range, if_true, Function.comp]
    rw [buildPost_plain, flatTexts_cons]
    show (partFn (n + 1) groups.length ++ [' ']) ++ flatTexts groups[n] = _
    simp [List.append_assoc]

/-- Claim C2 as amended: for a single-block post over the limit, Split
(default numbering, prefixed) returns posts whose plain texts are
exactly the numbered contents `[i/n] c_i`, and the original plain text
is recovered by interleaving the stripped contents with whitespace-only
separators — one whitespace run is dropped at each split boundary, and
a trailing whitespace run is dropped at the end.  (On multi-block posts
the claim cannot be saved at all: splitBlocks carries its `start`
cursor across blocks and faults, see `claim_C7_failing`.) -/
theorem claim_C2_amended (p : Post) (b : PostBlock)
    (hb : p.blocks = [b]) (hlong : 300 < p.getGraphemeLength) :
    ∃ (posts : List Post) (cs ss : List Str),
      SplitGo defaultPartFunction true p = some posts ∧
      posts.length = cs.length ∧ cs.length = ss.length ∧
      (∀ s ∈ ss, wsOnly s = true) ∧
      posts.map Post.getPlainText =
        List.zipWith (fun i c => defaultPartFunction (i + 1) cs.length ++ ' ' :: c)
          (List.range cs.length) cs ∧
      (List.zipWith (fun c s => c ++ s) cs ss).flatten = p.getPlainText := by
  obtain ⟨atoms, hsplit, hne, hcover, hinv⟩ := splitBlocks_single b
  obtain ⟨b0, rest, rfl⟩ : ∃ b0 rest, atoms = b0 :: rest := by
    cases atoms with
    | nil => exact absurd rfl hne
    | cons x xs => exact ⟨x, xs, rfl⟩
  have hri : restInv rest := atomInv_restInv b0 rest hinv
  have hws := pairUp_fst_ws rest hri
  obtain ⟨m', hwiden⟩ := groupWiden_exists defaultPartFunction true b0 (pairUp rest)
    ((pairUp rest).length + 2) 9 (by omega)
  obtain ⟨ss0, hglen, hss0, hjoin⟩ := packOnce_spec defaultPartFunction m' b0 (pairUp rest) hws
  refine ⟨(numberGroups defaultPartFunction true
      (packOnce defaultPartFunction m' b0 (pairUp rest))).map
        (buildPost p.creationTime p.languages),
    (packOnce defaultPartFunction m' b0 (pairUp rest)).map flatTexts,
    ss0 ++ [unpairedText rest], ?_, ?_, ?_, ?_, ?_, ?_⟩
  · rw [SplitGo, if_neg (by show ¬ (p.getGraphemeLength ≤ 300); omega), hb, hsplit]
    show some ((groupWiden defaultPartFunction true b0 (pairUp rest) 9).map
      (buildPost p.creationTime p.languages)) = _
    rw [hwiden]
  · simp [numberGroups]
  · simp only [List.length_map, List.length_append, List.length_cons, List.length_nil]
    omega
  · intro s hs
    rcases List.mem_append.mp hs with hmem | hmem
    · exact hss0 s hmem
    · rcases List.mem_singleton.mp hmem with rfl
      exact unpairedText_ws rest hri
  · rw [numberGroups_posts_plain, List.length_map]
  · rw [interJoin_zip _ _ _ (by simp only [List.length_map]; omega), hjoin]
    have hdec : b0.text ++ (pairsText (pairUp rest) ++ unpairedText rest) = b.text := by
      rw [← rest_decomp, ← flatTexts_cons, hcover]
    rw [getPlainText_eq_flatTexts, hb, flatTexts_single, ← hdec]
    simp [List.append_assoc]

/-- Witness for the amended C2 at the concrete post `pC1`. -/
theorem claim_C2_amended_witness :
    ∃ (posts : List Post) (cs ss : List Str),
      SplitGo defaultPartFunction true pC1 = some posts ∧
      posts.length = cs.length ∧ cs.length = ss.length ∧
      (∀ s ∈ ss, wsOnly s = true) ∧
      posts.map Post.getPlainText =
        List.zipWith (fun i c => defaultPartFunction (i + 1) cs.length ++ ' ' :: c)
          (List.range cs.length) cs ∧
      (List.zipWith (fun c s => c ++ s) cs ss).flatten = pC1.getPlainText :=
  claim_C2_amended pC1
    { text := aWord 100 ++ ' ' :: (aWord 100 ++ ' ' :: (aWord 93 ++ ' ' :: aWord 5)) }
    rfl (by decide)

/-! ## Feature exclusivity -/

/-- The number of feature annotations a block carries. -/
def featCount (b : PostBlock) : Nat :=
  (if b.link.isSome then 1 else 0) + (if b.mention.isSome then 1 else 0) +
    (if b.tag.isSome then 1 else 0)

/-- Every block of the post carries at most one feature. -/
def postFeatInv (p : Post) : Prop := ∀ b ∈ p.blocks, featCount b ≤ 1

theorem featCount_textOnly (bl : PostBlock) (t : Str) :
    featCount { bl with text := t } = featCount bl := rfl

theorem featCount_normBlock (b : PostBlock) : featCount (normBlock b) ≤ featCount b := by
  rw [featCount, featCount, normBlock]
  by_cases h1 : emptyStrPtr b.link = true <;> by_cases h2 : emptyStrPtr b.mention = true <;>
    by_cases h3 : emptyStrPtr b.tag = true <;>
      simp [h1, h2, h3] <;> split_ifs <;> omega

theorem appendMerge_featInv : ∀ (l : List PostBlock) (b : PostBlock),
    (∀ x ∈ l, featCount x ≤ 1) → featCount b ≤ 1 →
    ∀ x ∈ appendMerge l b, featCount x ≤ 1
  | [], b, _, hb, x, hx => by
    rw [appendMerge] at hx
    rcases List.mem_singleton.mp hx with rfl
    exact hb
  | [l0], b, hl, hb, x, hx => by
    rw [appendMerge] at hx
    by_cases h : sameFeatures l0 b = true
    · rw [if_pos h] at hx
      rcases List.mem_singleton.mp hx with rfl
      rw [featCount_textOnly]
      exact hl l0 (by simp)
    · rw [if_neg h] at hx
      rcases List.mem_cons.mp hx with rfl | hx2
      · exact hl _ (by simp)
      · rcases List.mem_singleton.mp hx2 with rfl
        exact hb
  | a :: c :: r, b, hl, hb, x, hx => by
    rw [appendMerge] at hx
    rcases List.mem_cons.mp hx with rfl | hx2
    · exact hl _ (by simp)
    · exact appendMerge_featInv (c :: r) b (fun y hy => hl y (List.mem_cons_of_mem a hy))
        hb x hx2

theorem addBlock_featInv (p : Post) (b : PostBlock)
    (hp : postFeatInv p) (hb : featCount b ≤ 1) : postFeatInv (p.addBlock b) := by
  intro x hx
  rw [Post.addBlock] at hx
  by_cases h : (b.text.length == 0) = true
  · rw [if_pos h] at hx
    exact hp x hx
  · rw [if_neg h] at hx
    exact appendMerge_featInv p.blocks (normBlock b) hp
      (le_trans (featCount_normBlock b) hb) x hx

theorem addText_featInv (p : Post) (t : Str) (hp : postFeatInv p) :
    postFeatInv (p.addText t) :=
  addBlock_featInv p _ hp (by simp [featCount, NewBlock])

theorem addLink_featInv (p : Post) (t u : Str) (hp : postFeatInv p) :
    postFeatInv (p.addLink t u) :=
  addBlock_featInv p _ hp (by simp [featCount, NewBlock, WithLink])

theorem addMention_featInv (p : Post) (t d : Str) (hp : postFeatInv p) :
    postFeatInv (p.addMention t d) :=
  addBlock_featInv p _ hp (by simp [featCount, NewBlock, WithMention])

theorem addTag_featInv (p : Post) (t g : Str) (hp : postFeatInv p) :
    postFeatInv (p.addTag t g) :=
  addBlock_featInv p _ hp (by simp [featCount, NewBlock, WithTag])

theorem newPost_featInv : postFeatInv NewPost := by
  intro b hb
  simp [NewPost] at hb

theorem importStep_featInv {U : Type} (cfg : ImportCfg U) (text : Str)
    (acc : Post × Nat) (f : Found) (hp : postFeatInv acc.1) :
    postFeatInv (importStep cfg text acc f).1 := by
  rw [importStep]
  by_cases h : acc.2 > f.start
  · rw [if_pos h]
    exact hp
  · rw [if_neg h]
    cases f.what with
    | webUrl =>
      cases cfg.urlResolver (goSlice text f.start f.stop) with
      | none => exact hp
      | some u => exact addLink_featInv _ _ _ (addText_featInv _ _ hp)
    | username =>
      cases cfg.handleResolver ((goSlice text f.start f.stop).drop 1) with
      | none => exact hp
      | some did => exact addMention_featInv _ _ _ (addText_featInv _ _ hp)
    | tag =>
      cases cfg.tagResolver (goSlice text f.start f.stop) with
      | none => exact hp
      | some t => exact addTag_featInv _ _ _ (addText_featInv _ _ hp)

theorem importFold_featInv {U : Type} (cfg : ImportCfg U) (text : Str) :
    ∀ (fs : List Found) (acc : Post × Nat), postFeatInv acc.1 →
    postFeatInv (fs.foldl (importStep cfg text) acc).1 := by
  intro fs
  induction fs with
  | nil => intro acc hp; exact hp
  | cons f fs ihf =>
    intro acc hp
    rw [List.foldl_cons]
    exact ihf _ (importStep_featInv cfg text acc f hp)

theorem importGo_featInv {U : Type} (cfg : ImportCfg U) (text : Str)
    (pooled : List Found) : postFeatInv (importGo cfg text pooled) := by
  rw [importGo]
  have h1 := importFold_featInv cfg text (sortFound pooled) (NewPost, 0) newPost_featInv
  by_cases h : ((sortFound pooled).foldl (importStep cfg text) (NewPost, 0)).2 < text.length
  · rw [if_pos h]
    exact addText_featInv _ _ h1
  · rw [if_neg h]
    exact h1

theorem scanAdd_featInv (bl : PostBlock) (runes : Str) (st : ScanState) (e : Nat)
    (st1 : ScanState) (h : scanAdd bl runes st e = some st1)
    (hout : ∀ x ∈ st.output, featCount x ≤ 1) (hbl : featCount bl ≤ 1) :
    ∀ x ∈ st1.output, featCount x ≤ 1 := by
  rw [scanAdd] at h
  split at h
  · cases h
    intro x hx
    rcases List.mem_append.mp hx with hx1 | hx2
    · exact hout x hx1
    · rcases List.mem_singleton.mp hx2 with rfl
      rw [featCount_textOnly]
      exact hbl
  · cases h

theorem scanRunes_featInv (bl : PostBlock) (runes : Str) (hbl : featCount bl ≤ 1) :
    ∀ (rest : List Char) (i : Nat) (st : ScanState),
    (∀ x ∈ st.output, featCount x ≤ 1) →
    ∀ st', scanRunes bl runes i rest st = some st' →
    ∀ x ∈ st'.output, featCount x ≤ 1 := by
  intro rest
  induction rest with
  | nil =>
    intro i st hout st' heq
    rw [scanRunes] at heq
    cases heq
    exact hout
  | cons r rest' ih =>
    intro i st hout st' heq
    rw [scanRunes] at heq
    cases hT : st.isText with
    | true =>
      rw [hT] at heq
      simp only [if_true] at heq
      cases hsp : goIsSpace r with
      | true =>
        rw [hsp] at heq
        simp only [if_true] at heq
        cases hadd : scanAdd bl runes st i with
        | none => rw [hadd] at heq; cases heq
        | some st1 =>
          rw [hadd] at heq
          exact ih (i + 1) { st1 with isText := false }
            (scanAdd_featInv bl runes st i st1 hadd hout hbl) st' heq
      | false =>
        rw [hsp] at heq
        simp only [Bool.false_eq_true, if_false] at heq
        by_cases hforce : 100 ≤ i - st.start
        · rw [if_pos hforce] at heq
          cases hadd : scanAdd bl runes st i with
          | none => rw [hadd] at heq; cases heq
          | some st1 =>
            rw [hadd] at heq
            replace heq : (match scanAdd bl runes st1 i with
              | none => none
              | some st2 => scanRunes bl runes (i + 1) rest' st2) = some st' := heq
            cases hadd2 : scanAdd bl runes st1 i with
            | none => rw [hadd2] at heq; cases heq
            | some st2 =>
              rw [hadd2] at heq
              exact ih (i + 1) st2
                (scanAdd_featInv bl runes st1 i st2 hadd2
                  (scanAdd_featInv bl runes st i st1 hadd hout hbl) hbl) st' heq
        · rw [if_neg hforce] at heq
          exact ih (i + 1) st hout st' heq
    | false =>
      rw [hT] at heq
      simp only [Bool.false_eq_true, if_false] at heq
      cases hsp : goIsSpace r with
      | true =>
        rw [hsp] at heq
        simp only [if_true] at heq
        exact ih (i + 1) st hout st' heq
      | false =>
        rw [hsp] at heq
        simp only [Bool.false_eq_true, if_false] at heq
        cases hadd : scanAdd bl runes st i with
        | none => rw [hadd] at heq; cases heq
        | some st1 =>
          rw [hadd] at heq
          exact ih (i + 1) { st1 with isText := true }
            (scanAdd_featInv bl runes st i st1 hadd hout hbl) st' heq

theorem scanBlocks_featInv : ∀ (blocks : List PostBlock) (st : ScanState),
    (∀ b ∈ blocks, featCount b ≤ 1) →
    (∀ x ∈ st.output, featCount x ≤ 1) →
    ∀ st', scanBlocks blocks st = some st' →
    ∀ x ∈ st'.output, featCount x ≤ 1 := by
  intro blocks
  induction blocks with
  | nil =>
    intro st _ hout st' heq
    rw [scanBlocks] at heq
    cases heq
    exact hout
  | cons b bs ihb =>
    intro st hbs hout st' heq
    rw [scanBlocks] at heq
    cases hsb : scanBlock st b with
    | none => rw [hsb] at heq; cases heq
    | some st1 =>
      rw [hsb] at heq
      have hb1 : featCount b ≤ 1 := hbs b (by simp)
      have hout1 : ∀ x ∈ st1.output, featCount x ≤ 1 := by
        rw [scanBlock] at hsb
        cases hsr : scanRunes b b.text 0 b.text st with
        | none => rw [hsr] at hsb; cases hsb
        | some stm =>
          rw [hsr] at hsb
          exact scanAdd_featInv b b.text stm b.text.length st1 hsb
            (scanRunes_featInv b b.text hb1 b.text 0 st hout stm hsr) hb1
      exact ihb st1 (fun y hy => hbs y (List.mem_cons_of_mem b hy)) hout1 st' heq

theorem splitBlocksGo_featInv (blocks : List PostBlock)
    (hbs : ∀ b ∈ blocks, featCount b ≤ 1) (atoms : List PostBlock)
    (heq : splitBlocksGo blocks = some atoms) :
    ∀ x ∈ atoms, featCount x ≤ 1 := by
  rw [splitBlocksGo] at heq
  cases hsb : scanBlocks blocks { output := [], isText := true, start := 0 } with
  | none => rw [hsb] at heq; cases heq
  | some st =>
    rw [hsb] at heq
    cases heq
    exact scanBlocks_featInv blocks _ hbs (by intro x hx; simp at hx) st hsb

theorem pairUp_mem {α : Type} : ∀ (l : List α) (pr : α × α), pr ∈ pairUp l →
    pr.1 ∈ l ∧ pr.2 ∈ l
  | [], pr, h => by simp [pairUp] at h
  | [a], pr, h => by simp [pairUp] at h
  | a :: b :: r, pr, h => by
    rw [pairUp] at h
    rcases List.mem_cons.mp h with rfl | hmem
    · exact ⟨by simp, by simp⟩
    · have := pairUp_mem r pr hmem
      exact ⟨List.mem_cons_of_mem a (List.mem_cons_of_mem b this.1),
        List.mem_cons_of_mem a (List.mem_cons_of_mem b this.2)⟩

theorem packPairs_featInv (partFn : Nat → Nat → Str) (maxCount : Nat) :
    ∀ (pairs : List (PostBlock × PostBlock)) (st : PackState),
    (∀ pr ∈ pairs, featCount pr.1 ≤ 1 ∧ featCount pr.2 ≤ 1) →
    (∀ g ∈ st.outGroups, ∀ x ∈ g, featCount x ≤ 1) →
    (∀ x ∈ st.group, featCount x ≤ 1) →
    ∀ g ∈ (packPairs partFn maxCount pairs st).outGroups ++
      [(packPairs partFn maxCount pairs st).group], ∀ x ∈ g, featCount x ≤ 1 := by
  intro pairs
  induction pairs with
  | nil =>
    intro st _ hout hgrp g hg
    rw [packPairs] at hg
    rcases List.mem_append.mp hg with h1 | h2
    · exact hout g h1
    · rcases List.mem_singleton.mp h2 with rfl
      exact hgrp
  | cons pr rest ih =>
    intro st hprs hout hgrp g hg
    obtain ⟨sp, w⟩ := pr
    rw [packPairs] at hg
    by_cases h : maxPostGraphemeLength < st.groupLen + w.getGraphemeLength
    · rw [if_pos h] at hg
      refine ih (startGroup partFn maxCount (st.outGroups ++ [st.group]) w)
        (fun q hq => hprs q (List.mem_cons_of_mem _ hq)) ?_ ?_ g hg
      · intro g2 hg2 x hx
        rcases List.mem_append.mp hg2 with h1 | h2
        · exact hout g2 h1 x hx
        · rcases List.mem_singleton.mp h2 with rfl
          exact hgrp x hx
      · intro x hx
        have hxw : x = w := List.mem_singleton.mp hx
        cases hxw
        exact (hprs (sp, w) (by simp)).2
    · rw [if_neg h] at hg
      refine ih { st with
          group := st.group ++ [sp, w]
          groupLen := st.groupLen + sp.getGraphemeLength + w.getGraphemeLength }
        (fun q hq => hprs q (List.mem_cons_of_mem _ hq)) ?_ ?_ g hg
      · exact hout
      · intro x hx
        rcases List.mem_append.mp hx with h1 | h2
        · exact hgrp x h1
        · rcases List.mem_cons.mp h2 with hxe | h3
          · cases hxe
            exact (hprs (sp, w) (by simp)).1
          · have hxw : x = w := List.mem_singleton.mp h3
            cases hxw
            exact (hprs (sp, w) (by simp)).2

theorem packOnce_featInv (partFn : Nat → Nat → Str) (maxCount : Nat) (b0 : PostBlock)
    (pairs : List (PostBlock × PostBlock)) (hb0 : featCount b0 ≤ 1)
    (hprs : ∀ pr ∈ pairs, featCount pr.1 ≤ 1 ∧ featCount pr.2 ≤ 1) :
    ∀ g ∈ packOnce partFn maxCount b0 pairs, ∀ x ∈ g, featCount x ≤ 1 := by
  intro g hg
  refine packPairs_featInv partFn maxCount pairs (startGroup partFn maxCount [] b0)
    hprs ?_ ?_ g hg
  · intro g2 hg2
    simp [startGroup] at hg2
  · intro x hx
    rcases List.mem_singleton.mp hx with rfl
    exact hb0

theorem numberGroups_featInv (partFn : Nat → Nat → Str) (usePfx : Bool)
    (groups : List (List PostBlock))
    (hg : ∀ g ∈ groups, ∀ x ∈ g, featCount x ≤ 1) :
    ∀ g ∈ numberGroups partFn usePfx groups, ∀ x ∈ g, featCount x ≤ 1 := by
  intro g hgm x hx
  rw [numberGroups] at hgm
  obtain ⟨n, hn, hgx⟩ := List.mem_iff_getElem.mp hgm
  have hn2 : n < groups.length := by
    simp only [List.length_zipWith, List.length_range, Nat.min_self] at hn
    exact hn
  rw [List.getElem_zipWith, List.getElem_range] at hgx
  subst hgx
  cases hp : usePfx with
  | true =>
    simp only [hp, if_true] at hx
    rcases List.mem_cons.mp hx with rfl | hmem
    · simp [featCount, NewBlock]
    · exact hg _ (List.getElem_mem hn2) x hmem
  | false =>
    simp only [hp, Bool.false_eq_true, if_false] at hx
    rcases List.mem_append.mp hx with hmem | hone
    · exact hg _ (List.getElem_mem hn2) x hmem
    · rcases List.mem_singleton.mp hone with rfl
      simp [featCount, NewBlock]

theorem buildPost_featInv (ct : Option Int) (langs : List Str) (g : List PostBlock)
    (hg : ∀ x ∈ g, featCount x ≤ 1) : postFeatInv (buildPost ct langs g) := by
  rw [buildPost]
  have haux : ∀ (l : List PostBlock) (p : Post), postFeatInv p →
      (∀ x ∈ l, featCount x ≤ 1) → postFeatInv (l.foldl Post.addBlock p) := by
    intro l
    induction l with
    | nil => intro p hp _; exact hp
    | cons b bs ihb =>
      intro p hp hl
      rw [List.foldl_cons]
      exact ihb _ (addBlock_featInv p b hp (hl b (by simp)))
        (fun y hy => hl y (List.mem_cons_of_mem b hy))
  exact haux g _ (by intro x hx; simp at hx) hg

theorem SplitGo_featInv (partFn : Nat → Nat → Str) (usePfx : Bool) (p : Post)
    (hp : postFeatInv p) (posts : List Post)
    (heq : SplitGo partFn usePfx p = some posts) :
    ∀ q ∈ posts, postFeatInv q := by
  rw [SplitGo] at heq
  by_cases hshort : p.getGraphemeLength ≤ maxPostGraphemeLength
  · rw [if_pos hshort] at heq
    cases heq
    intro q hq
    rcases List.mem_singleton.mp hq with rfl
    exact hp
  · rw [if_neg hshort] at heq
    cases hA : splitBlocksGo p.blocks with
    | none =>
      rw [hA] at heq
      cases heq
    | some atoms =>
      rw [hA] at heq
      replace heq : (match groupBlocksGo partFn usePfx atoms with
        | none => none
        | some groups =>
          some (groups.map (buildPost p.creationTime p.languages))) = some posts := heq
      have hatomsInv : ∀ x ∈ atoms, featCount x ≤ 1 :=
        splitBlocksGo_featInv p.blocks hp atoms hA
      cases hatoms : atoms with
      | nil =>
        rw [hatoms] at heq
        replace heq : (none : Option (List Post)) = some posts := heq
        cases heq
      | cons b0 rest =>
        rw [hatoms] at heq
        replace heq : some ((groupWiden partFn usePfx b0 (pairUp rest) 9).map
          (buildPost p.creationTime p.languages)) = some posts := heq
        obtain ⟨m', hwiden⟩ := groupWiden_exists partFn usePfx b0 (pairUp rest)
          ((pairUp rest).length + 2) 9 (by omega)
        rw [hwiden] at heq
        have hposts := Option.some.inj heq
        subst hposts
        rw [hatoms] at hatomsInv
        intro q hq
        obtain ⟨g, hgmem, hq2⟩ := List.mem_map.mp hq
        cases hq2
        refine buildPost_featInv _ _ g ?_
        refine numberGroups_featInv partFn usePfx _ ?_ g hgmem
        refine packOnce_featInv partFn m' b0 (pairUp rest) (hatomsInv b0 (by simp)) ?_
        intro pr hpr
        have hm := pairUp_mem rest pr hpr
        exact ⟨hatomsInv pr.1 (List.mem_cons_of_mem _ hm.1),
          hatomsInv pr.2 (List.mem_cons_of_mem _ hm.2)⟩

/-- Counterexample to claim C8: NewBlock applies every feature in its
list, so a two-element feature list produces a block with two feature
fields set at once. -/
theorem claim_C8_counterexample :
    featCount (NewBlock (s2l "x") [WithLink (s2l "u"), WithTag (s2l "t")]) = 2 ∧
    ¬ featCount (NewBlock (s2l "x") [WithLink (s2l "u"), WithTag (s2l "t")]) ≤ 1 := by
  constructor <;> decide

/-- Claim C8 as amended: every block reachable through NewBlock with at
most one of the public features, through AddText/AddLink/AddMention/
AddTag, through Import, or through Split applied to a post already
satisfying the invariant, carries at most one of the link, mention and
tag annotations.  (NewBlock with a longer feature list is excluded: it
applies every feature it is given, see the counterexample.) -/
theorem claim_C8_amended {U : Type} (cfg : ImportCfg U) (text : Str) (pooled : List Found)
    (partFn : Nat → Nat → Str) (usePfx : Bool) (p : Post) (t u d g : Str) :
    featCount (NewBlock t []) ≤ 1 ∧
    featCount (NewBlock t [WithLink u]) ≤ 1 ∧
    featCount (NewBlock t [WithMention d]) ≤ 1 ∧
    featCount (NewBlock t [WithTag g]) ≤ 1 ∧
    (postFeatInv p → postFeatInv (p.addText t) ∧ postFeatInv (p.addLink t u) ∧
      postFeatInv (p.addMention t d) ∧ postFeatInv (p.addTag t g)) ∧
    postFeatInv (importGo cfg text pooled) ∧
    (postFeatInv p → ∀ posts, SplitGo partFn usePfx p = some posts →
      ∀ q ∈ posts, postFeatInv q) := by
  refine ⟨by simp [featCount, NewBlock], by simp [featCount, NewBlock, WithLink],
    by simp [featCount, NewBlock, WithMention], by simp [featCount, NewBlock, WithTag],
    ?_, importGo_featInv cfg text pooled, ?_⟩
  · intro hp
    exact ⟨addText_featInv p t hp, addLink_featInv p t u hp,
      addMention_featInv p t d hp, addTag_featInv p t g hp⟩
  · intro hp posts heq
    exact SplitGo_featInv partFn usePfx p hp posts heq

/-- Witness for the amended C8 at concrete inputs. -/
theorem claim_C8_amended_witness :
    postFeatInv ((NewPost.addText (s2l "hi")).addLink (s2l "x") (s2l "u")) ∧
    postFeatInv (importGo wCfg (s2l "hi @valid.user")
      [{ start := 3, stop := 14, what := .username }]) ∧
    (∀ q ∈ [NewPost.addText (s2l "hi")], postFeatInv q) := by
  have h := claim_C8_amended wCfg (s2l "hi @valid.user")
    [{ start := 3, stop := 14, what := .username }] defaultPartFunction true
    (NewPost.addText (s2l "hi")) (s2l "x") (s2l "u") (s2l "d") (s2l "g")
  have hblocks : (NewPost.addText (s2l "hi")).blocks = [{ text := s2l "hi" }] := by decide
  have hpf : postFeatInv (NewPost.addText (s2l "hi")) := by
    intro b hb
    rw [hblocks] at hb
    rcases List.mem_singleton.mp hb with rfl
    decide
  refine ⟨?_, h.2.2.2.2.2.1, ?_⟩
  · exact (h.2.2.2.2.1 hpf).2.1
  · exact h.2.2.2.2.2.2 hpf [NewPost.addText (s2l "hi")] (by decide)

end K3
